import Mathlib

/-
Formal model of the StickerNest nesting core, translated over exact rationals
from snest/algorithm/minkowski.py, snest/algorithm/nest.py and
snest/algorithm/GA.py.

Floating-point numbers are modelled as rationals (every Python float is a
rational value; float arithmetic on the inputs we reason about is exact or
abstracted behind oracles).  Shapely geometry objects are modelled by their
stored coordinate sequences; the library's boolean operations (union,
intersection) and convex hull, which are external C++ code, are abstracted as
parameters.  Object identity of mutable Python values is modelled by indices
into an explicit store wherever aliasing is observable.
-/

namespace StickerNest

/-- A coordinate pair, as stored by shapely. -/
abbrev Pt : Type := ℚ × ℚ

/-- An exterior coordinate sequence as shapely stores it (a polygon ring is
closed: the first point is repeated at the end). -/
abbrev Ring : Type := List Pt

/-- `TOL = 10**-9` (nest.py). -/
def TOL : ℚ := 1 / 10 ^ 9

/-- `almost_equal(a, b)`: `abs(a - b) < TOL` (nest.py). -/
def almost_equal (a b : ℚ) : Bool := |a - b| < TOL

/-- Shapely `bounds` of a coordinate list: `(minx, miny, maxx, maxy)`. -/
structure Bounds where
  minx : ℚ
  miny : ℚ
  maxx : ℚ
  maxy : ℚ
deriving DecidableEq, Repr

/-- `bounds` of a list of coordinates.  Shapely would return NaNs for an empty
geometry; the empty case is junk `(0,0,0,0)` and unreachable in the paths we
model. -/
def boundsOf : List Pt → Bounds
  | [] => ⟨0, 0, 0, 0⟩
  | p :: ps => ps.foldl
      (fun b q => ⟨min b.minx q.1, min b.miny q.2, max b.maxx q.1, max b.maxy q.2⟩)
      ⟨p.1, p.2, p.1, p.2⟩

/-- Twice the signed shoelace sum of a closed coordinate ring. -/
def shoelace : List Pt → ℚ
  | p :: q :: rest => (p.1 * q.2 - q.1 * p.2) + shoelace (q :: rest)
  | _ => 0

/-- Shapely `Polygon.area` of a closed exterior ring. -/
def areaRing (r : Ring) : ℚ := |shoelace r| / 2

/-- Coordinate negation: `affinity.scale(A, -1, -1, origin=(0, 0))`
(minkowski.py). -/
def negRing (A : Ring) : Ring := A.map (fun p => (-p.1, -p.2))

/-- `np.add(*np.meshgrid(ca, cb)).reshape(-1)` (minkowski.py): the flattened
matrix whose row `i` is `[ca[0] + cb[i], ca[1] + cb[i], ...]`. -/
def meshAddFlat (ca cb : List ℚ) : List ℚ :=
  cb.flatMap (fun b => ca.map (fun a => a + b))

/-- `minkowski_diff_nfp` (minkowski.py).  The per-axis coordinates of `-A` and
`B` are combined pairwise via `np.meshgrid`, stacked into points, passed to
shapely's `convex_hull` (abstracted as `hull`, returning the hull's
coordinates), and transformed by the affine `[-1, 0, 0, -1, ref.x, ref.y]`. -/
def minkowski_diff_nfp (hull : List Pt → List Pt) (A B : Ring) : List Pt :=
  let A_inv := negRing A
  let xs := meshAddFlat (A_inv.map Prod.fst) (B.map Prod.fst)
  let ys := meshAddFlat (A_inv.map Prod.snd) (B.map Prod.snd)
  let cloud := xs.zip ys
  let ref := B.headD (0, 0)
  (hull cloud).map (fun p => (-p.1 + ref.1, -p.2 + ref.2))

/-- The point cloud as the specification words it for C7: all pairwise vector
sums of the negation of A's exterior coordinates with B's exterior
coordinates. -/
def specPairwiseSums (A B : Ring) : List Pt :=
  (negRing A).flatMap (fun a => B.map (fun b => (a.1 + b.1, a.2 + b.2)))

/-- `rectangle_ifp` (minkowski.py): the inner fit polygon of `poly` inside the
axis-aligned bounding rectangle of `rect`, or `None` when `poly`'s bounding
box does not fit. -/
def rectangle_ifp (rect poly : Ring) : Option Ring :=
  let rect_width := (boundsOf rect).maxx - (boundsOf rect).minx
  let rect_height := (boundsOf rect).maxy - (boundsOf rect).miny
  let poly_width := (boundsOf poly).maxx - (boundsOf poly).minx
  let poly_height := (boundsOf poly).maxy - (boundsOf poly).miny
  if poly_width > rect_width ∨ poly_height > rect_height then none
  else
    let ref := poly.headD (0, 0)
    let b0 := (boundsOf rect).minx + (ref.1 - (boundsOf poly).minx)
    let b1 := (boundsOf rect).miny + (ref.2 - (boundsOf poly).miny)
    let b2 := (boundsOf rect).maxx + (ref.1 - (boundsOf poly).maxx)
    let b3 := (boundsOf rect).maxy + (ref.2 - (boundsOf poly).maxy)
    some [(b0, b1), (b0, b3), (b2, b3), (b2, b1), (b0, b1)]

/-- Python `x - 360 * (x // 360)` (floor division), used by both `calc_nfps`
and `nest` to strip whole turns from an accumulated rotation. -/
def reduceRot (r : ℚ) : ℚ := r - 360 * ⌊r / 360⌋

/-- The components of the pair cache key string
`f"{A.polygon_id},{B.polygon_id}-{B_rotation - A_rotation}"` as built in
`calc_nfps` (nest.py).  The string encodes this triple injectively (the ids
contain no `-` or `,`, and the float repr is injective), so the triple is the
key. -/
def calcNfpsPairKey (idA idB : ℕ) (rotA rotB : ℚ) : ℕ × ℕ × ℚ :=
  (idA, idB, reduceRot rotB - reduceRot rotA)

/-- The components of the bin key string
`f"{bin.polygon_id},{B.polygon_id}-{B_rotation}"` built in `calc_nfps`. -/
def calcNfpsBinKey (binId idB : ℕ) (rotB : ℚ) : ℕ × ℕ × ℚ :=
  (binId, idB, reduceRot rotB)

/-- The components of the pair cache key string built at lookup time in `nest`
(nest.py, inner placement loop). -/
def nestPairKey (idA idB : ℕ) (rotA rotB : ℚ) : ℕ × ℕ × ℚ :=
  (idA, idB, reduceRot rotB - reduceRot rotA)

/-- The components of the bin key string `f"0,{poly_id}-{B_rotation}"` built at
lookup time in `nest`. -/
def nestBinKey (idB : ℕ) (rotB : ℚ) : ℕ × ℕ × ℚ :=
  (0, idB, reduceRot rotB)

/-- An atomic shapely geometry, as it occurs inside collections returned by
the boolean operations in these code paths (points and line strings from
boundary/IFP intersections, polygons inside multi-polygon unions). -/
inductive GAtom where
  | point (p : Pt)
  | lineString (cs : List Pt)
  | polygon (ext : Ring)
deriving DecidableEq, Repr

/-- A shapely geometry as dispatched on in nest.py: the `isinstance` tests
against `Polygon`, `MultiLineString`, `MultiPolygon`, `GeometryCollection`
become constructor matches.  Collections hold atomic members (the nested cases
do not occur in these code paths). -/
inductive Geom where
  | polygon (ext : Ring)
  | lineString (cs : List Pt)
  | point (p : Pt)
  | multiPoint (ps : List Pt)
  | multiLineString (ls : List (List Pt))
  | multiPolygon (ps : List Ring)
  | geometryCollection (gs : List GAtom)
deriving DecidableEq, Repr

/-- Shapely `is_empty` (a geometry is falsy in Python iff it is empty, i.e.
holds no coordinates). -/
def GAtom.isEmptyA : GAtom → Bool
  | .point _ => false
  | .lineString cs => cs.isEmpty
  | .polygon e => e.isEmpty

/-- Shapely `is_empty` / Python falsiness of a geometry. -/
def Geom.isEmptyG : Geom → Bool
  | .polygon e => e.isEmpty
  | .lineString cs => cs.isEmpty
  | .point _ => false
  | .multiPoint ps => ps.isEmpty
  | .multiLineString ls => ls.all (·.isEmpty)
  | .multiPolygon ps => ps.all (·.isEmpty)
  | .geometryCollection gs => gs.all (·.isEmptyA)

/-- `.coords` of an atomic geometry.  A shapely `Polygon` has no `.coords`
(Python raises); that case is junk `[]` and unreachable in the modelled
paths. -/
def GAtom.coordsA : GAtom → List Pt
  | .point p => [p]
  | .lineString cs => cs
  | .polygon _ => []

/-- `.exterior` coordinate ring of a geometry assumed to be a `Polygon`
(other cases raise `AttributeError` in Python; junk `[]`). -/
def exteriorExt : Geom → List Pt
  | .polygon e => e
  | _ => []

/-- The valid-coordinate extraction at the top of `place_poly` (nest.py):
`MultiLineString` and `GeometryCollection` contribute `line.coords` of each
member; any other geometry contributes its own `.coords`.  Geometries without
`.coords` (polygons) would raise in Python; junk `[]`. -/
def validCoords : Geom → List Pt
  | .multiLineString ls => ls.flatten
  | .geometryCollection gs => gs.flatMap GAtom.coordsA
  | .lineString cs => cs
  | .point p => [p]
  | .multiPoint _ => []
  | .polygon _ => []
  | .multiPolygon _ => []

/-- A 3×3 matrix of rationals (the numpy `transformation` of a FitPoly). -/
structure Mat3 where
  m11 : ℚ
  m12 : ℚ
  m13 : ℚ
  m21 : ℚ
  m22 : ℚ
  m23 : ℚ
  m31 : ℚ
  m32 : ℚ
  m33 : ℚ
deriving DecidableEq, Repr

/-- `np.matmul` on 3×3 matrices. -/
def Mat3.mul (a b : Mat3) : Mat3 :=
  ⟨a.m11 * b.m11 + a.m12 * b.m21 + a.m13 * b.m31,
   a.m11 * b.m12 + a.m12 * b.m22 + a.m13 * b.m32,
   a.m11 * b.m13 + a.m12 * b.m23 + a.m13 * b.m33,
   a.m21 * b.m11 + a.m22 * b.m21 + a.m23 * b.m31,
   a.m21 * b.m12 + a.m22 * b.m22 + a.m23 * b.m32,
   a.m21 * b.m13 + a.m22 * b.m23 + a.m23 * b.m33,
   a.m31 * b.m11 + a.m32 * b.m21 + a.m33 * b.m31,
   a.m31 * b.m12 + a.m32 * b.m22 + a.m33 * b.m32,
   a.m31 * b.m13 + a.m32 * b.m23 + a.m33 * b.m33⟩

/-- The identity matrix `np.array([[1,0,0],[0,1,0],[0,0,1]])`. -/
def idMat : Mat3 := ⟨1, 0, 0, 0, 1, 0, 0, 0, 1⟩

/-- The `FitPoly` helper class (nest.py).  `id` is the unique per-instance
counter value, `polygon_id` links the shape to its source image (0 is the
bin), `rotation` accumulates degrees for cache keying, `polygon` is the moved
geometry and `transformation` the accumulated affine. -/
structure FitPoly where
  id : ℕ
  polygon_id : ℕ
  original_polygon : Ring
  rotation : ℚ
  polygon : Ring
  fit : Bool
  bin_n : ℕ
  transformation : Mat3
deriving DecidableEq, Repr

instance : Inhabited FitPoly :=
  ⟨⟨0, 0, [], 0, [], false, 0, idMat⟩⟩

/-- `FitPoly.translate` (nest.py): left-multiply the translation matrix onto
the accumulated transformation and shift the polygon. -/
def FitPoly.translateFP (p : FitPoly) (t : Pt) : FitPoly :=
  { p with
    transformation := (Mat3.mk 1 0 t.1 0 1 t.2 0 0 1).mul p.transformation,
    polygon := p.polygon.map (fun q => (q.1 + t.1, q.2 + t.2)) }

/-- Oracle for the floating-point trigonometry and the shapely ring centroid
used by `FitPoly.rotate`: `cosd`/`sind` stand for `np.cos ∘ np.deg2rad` and
`np.sin ∘ np.deg2rad` (rational-valued float functions), `centroid` for
`polygon.exterior.centroid` (length-weighted, involves square roots). -/
structure TrigOracle where
  cosd : ℚ → ℚ
  sind : ℚ → ℚ
  centroid : Ring → Pt

/-- `FitPoly.rotate` (nest.py): update the accumulated `rotation`, compose the
centroid-centred rotation matrix onto `transformation`, and apply the affine
`[cos, -sin, sin, cos, x_off, y_off]` to the polygon.  A zero rotation
returns the object untouched. -/
def FitPoly.rotateFP (p : FitPoly) (trig : TrigOracle) (θ : ℚ) : FitPoly :=
  if θ = 0 then p else
  let c := trig.centroid p.polygon
  let co := trig.cosd θ
  let si := trig.sind θ
  let x_off := c.1 - c.1 * co + c.2 * si
  let y_off := c.2 - c.1 * si - c.2 * co
  { p with
    rotation := p.rotation + θ,
    transformation := (Mat3.mk co (-si) x_off si co y_off 0 0 1).mul p.transformation,
    polygon := p.polygon.map
      (fun q => (co * q.1 + -si * q.2 + x_off, si * q.1 + co * q.2 + y_off)) }

/-- The shapely boolean operations used by `nest` (external C++ code),
abstracted: `union` is `Geometry.union`, `intersection` is
`Geometry.intersection`. -/
structure GeomOps where
  union : Geom → Geom → Geom
  intersection : Geom → Geom → Geom

/-- A cache key: `(idA, idB, dRot)` — the components of the key strings of
nest.py. -/
abbrev CKey : Type := ℕ × ℕ × ℚ

/-- The NFP/IFP cache.  `nest`'s precondition (spec §4.3) is that every key it
looks up is present, so the cache is modelled as a total map; `none` is the
stored Python `None` (shape does not fit the bin). -/
abbrev Cache : Type := CKey → Option Geom

/-- Python truthiness of a fetched cache entry (`if ifp:` /
`if not inner_poly:`): `None` and empty geometries are falsy. -/
def entryTruthy : Option Geom → Bool
  | none => false
  | some g => !g.isEmptyG

/-- A six-tuple shapely affine `[a, b, d, e, xoff, yoff]`:
`x' = a·x + b·y + xoff`, `y' = d·x + e·y + yoff`. -/
structure Aff6 where
  a : ℚ
  b : ℚ
  d : ℚ
  e : ℚ
  xoff : ℚ
  yoff : ℚ

/-- Apply an affine to one coordinate pair. -/
def applyAff (t : Aff6) (p : Pt) : Pt :=
  (t.a * p.1 + t.b * p.2 + t.xoff, t.d * p.1 + t.e * p.2 + t.yoff)

/-- `affinity.affine_transform` maps every stored coordinate. -/
def mapGeom (f : Pt → Pt) : Geom → Geom
  | .polygon e => .polygon (e.map f)
  | .lineString cs => .lineString (cs.map f)
  | .point p => .point (f p)
  | .multiPoint ps => .multiPoint (ps.map f)
  | .multiLineString ls => .multiLineString (ls.map (·.map f))
  | .multiPolygon ps => .multiPolygon (ps.map (·.map f))
  | .geometryCollection gs => .geometryCollection (gs.map (fun a =>
      match a with
      | .point p => .point (f p)
      | .lineString cs => .lineString (cs.map f)
      | .polygon e => .polygon (e.map f)))

/-- The score of one candidate position inside `place_poly` (nest.py):
`MultiPolygon(placed_polys + [translated_poly]).bounds`, width weighted
double. -/
def scoreOf (placed_polys : List Ring) (translated : Ring) : ℚ :=
  let b := boundsOf ((placed_polys ++ [translated]).flatten)
  (b.maxx - b.minx) * 2 + (b.maxy - b.miny)

/-- The score `place_poly` assigns to shifting the candidate's polygon by
`shift` next to `placed_polys`. -/
def shiftScore (placed_polys : List Ring) (poly : Ring) (shift : Pt) : ℚ :=
  scoreOf placed_polys (poly.map (fun q => (q.1 + shift.1, q.2 + shift.2)))

/-- One iteration of the brute-force loop of `place_poly`: the running state
is `none` before the first coordinate and `some (minarea, position)`
afterwards (`minx` is always `position.1`). -/
def placeStep (placed_polys : List Ring) (poly : Ring) (ref : Pt)
    (st : Option (ℚ × Pt)) (c : Pt) : Option (ℚ × Pt) :=
  let shift : Pt := (c.1 - ref.1, c.2 - ref.2)
  let area := shiftScore placed_polys poly shift
  match st with
  | none => some (area, shift)
  | some (minarea, pos) =>
    if area < minarea ∨ (almost_equal minarea area ∧ shift.1 < pos.1) then
      some (area, shift)
    else some (minarea, pos)

/-- `place_poly` (nest.py).  `valid` is `None` or a geometry (`if not
valid_nfp: return None` covers both); the candidate is deep-copied and only
read, so the model is a plain function of the values.  Returns the chosen
shift, if any. -/
def place_poly (valid : Option Geom) (placed : List FitPoly)
    (current_poly : FitPoly) : Option Pt :=
  match valid with
  | none => none
  | some v =>
    if v.isEmptyG then none
    else
      let valid_coords := validCoords v
      let placed_polys := placed.map (·.polygon)
      let ref := current_poly.polygon.headD (0, 0)
      (valid_coords.foldl (placeStep placed_polys current_poly.polygon ref) none).map (·.2)

/-- The head-skipping loop at the top of each bin pass of `nest`: pop heads of
`to_place` whose IFP cache entry is falsy; stop at the first truthy entry
(returning it) or when the list empties. -/
def seedSearch (cache : Cache) (master : List FitPoly) :
    List ℕ → List ℕ × Option Geom
  | [] => ([], none)
  | r :: rest =>
    let c := master.getD r default
    let e := cache (nestBinKey c.polygon_id c.rotation)
    if entryTruthy e then (r :: rest, e)
    else seedSearch cache master rest

/-- The first-placement vertex scan of `nest`: over the IFP exterior
coordinates except the closing one, keep the offset with the strictly
smallest x component. -/
def firstPosition (ifpExt : List Pt) (ref : Pt) : Option Pt :=
  ifpExt.dropLast.foldl
    (fun pos c =>
      match pos with
      | none => some (c.1 - ref.1, c.2 - ref.2)
      | some p => if c.1 - ref.1 < p.1 then some (c.1 - ref.1, c.2 - ref.2) else some p)
    none

/-- The `full_nfp` accumulation of `nest`: for every already placed polygon,
fetch the pairwise NFP from the cache, move it by the placed polygon's
accumulated affine, and union it onto the running geometry.  A missing key
would raise `KeyError` in Python (precondition: `calc_nfps` ran); the model
substitutes an empty polygon there. -/
def fullNfpOf (ops : GeomOps) (cache : Cache) (master : List FitPoly)
    (placed : List ℕ) (cand : FitPoly) : Option Geom :=
  placed.foldl
    (fun acc pr =>
      let pp := master.getD pr default
      let nfp0 := (cache (nestPairKey pp.polygon_id cand.polygon_id
        pp.rotation cand.rotation)).getD (Geom.polygon [])
      let nfp := mapGeom (applyAff
        ⟨pp.transformation.m11, pp.transformation.m12,
         pp.transformation.m21, pp.transformation.m22,
         pp.transformation.m13, pp.transformation.m23⟩) nfp0
      match acc with
      | none => some nfp
      | some f => some (ops.union f nfp))
    none

/-- `line = geom; if isinstance(geom, Polygon): line = geom.exterior` inside
the collection branch of `nest`. -/
def atomLine : GAtom → Geom
  | .polygon e => .lineString e
  | .lineString cs => .lineString cs
  | .point p => .point p

/-- One step of the collection branch accumulating `valid` in `nest`:
`valid = valid.union(line.intersection(inner))` when `valid` is truthy,
else `valid = line.intersection(inner)`. -/
def validStep (ops : GeomOps) (inner : Geom) (acc : Option Geom) (a : GAtom) :
    Option Geom :=
  let li := ops.intersection (atomLine a) inner
  match acc with
  | none => some li
  | some v => if v.isEmptyG then some li else some (ops.union v li)

/-- The valid-placement computation of `nest`: intersect the boundary of
`full_nfp` with the inner fit polygon, per component when `full_nfp` is a
collection or multi-polygon.  Other non-polygon geometries would raise on
`.exterior` in Python (junk path). -/
def validOf (ops : GeomOps) (full : Geom) (inner : Geom) : Option Geom :=
  match full with
  | .geometryCollection gs => gs.foldl (validStep ops inner) none
  | .multiPolygon ps => (ps.map GAtom.polygon).foldl (validStep ops inner) none
  | g => some (ops.intersection (.lineString (exteriorExt g)) inner)

/-- One iteration of the subsequent-placement loop of `nest` for candidate
reference `r`: skip when the bin IFP entry is falsy, otherwise build
`full_nfp`, compute `valid`, ask `place_poly` for a shift, and on success
translate the candidate, mark it fit in bin `bin_n` and append it to
`placed`. -/
def candidateStep (ops : GeomOps) (cache : Cache) (bin_n : ℕ)
    (st : List ℕ × List FitPoly) (r : ℕ) : List ℕ × List FitPoly :=
  let placed := st.1
  let master := st.2
  let c := master.getD r default
  let inner := cache (nestBinKey c.polygon_id c.rotation)
  if ¬ entryTruthy inner then (placed, master)
  else
    let innerG := inner.getD (Geom.polygon [])
    let valid : Option Geom :=
      match fullNfpOf ops cache master placed c with
      | some f => validOf ops f innerG
      | none => none
    match place_poly valid (placed.map (fun pr => master.getD pr default)) c with
    | none => (placed, master)
    | some t =>
      (placed ++ [r],
       master.set r { (master.getD r default).translateFP t with fit := true, bin_n := bin_n })

/-- The outer bin-opening loop of `nest`, on references into the `master`
list of FitPolys (Python object identity).  `fuel` is a structural bound on
the number of passes; `nest` supplies `polys.length + 1`, which suffices
because every pass with a non-empty `to_place` shortens it. -/
def nestLoop (ops : GeomOps) (cache : Cache) (binArea : ℚ) :
    ℕ → List ℕ → List FitPoly → ℕ → ℚ → List (List ℕ) →
    ℚ × ℕ × List (List ℕ) × List FitPoly
  | 0, _, master, bin_n, fitness, result => (fitness, bin_n, result, master)
  | fuel + 1, to_place, master, bin_n, fitness, result =>
    if to_place.isEmpty then (fitness, bin_n, result, master)
    else
      let sr := seedSearch cache master to_place
      let tp := sr.1
      let seeded : List ℕ × List FitPoly :=
        match sr.2 with
        | some ifpG =>
          let s := tp.headD 0
          let c := master.getD s default
          -- `position` cannot be `None` for a real IFP rectangle (Python
          -- would raise a TypeError); junk default (0, 0).
          let pos := (firstPosition (exteriorExt ifpG) (c.polygon.headD (0, 0))).getD (0, 0)
          ([s], master.set s { c.translateFP pos with fit := true, bin_n := bin_n })
        | none => ([], master)
      let done := (tp.drop 1).foldl (candidateStep ops cache bin_n) seeded
      let placed := done.1
      let master₁ := done.2
      let to_place₂ := placed.foldl (fun l r => l.erase r) tp
      let fitness₂ :=
        if placed.length > 0 then
          let b := boundsOf ((placed.map (fun r => (master₁.getD r default).polygon)).flatten)
          fitness + (b.maxx - b.minx) / binArea
        else fitness
      nestLoop ops cache binArea fuel to_place₂ master₁ (bin_n + 1) fitness₂
        (result ++ [placed])

/-- `nest` (nest.py).  Takes the bin's exterior ring, the polygons (their
list positions are the Python object references) and the cache; returns the
fitness, the bins as lists of references into the returned final list of
FitPolys (the post-state of the mutable inputs). -/
def nestQ (ops : GeomOps) (cache : Cache) (binRing : Ring)
    (polys : List FitPoly) : ℚ × List (List ℕ) × List FitPoly :=
  let master := polys.map (fun p => { p with fit := false })
  let out := nestLoop ops cache (areaRing binRing) (polys.length + 1)
    (List.range polys.length) master 0 0 []
  let fitness := out.1
  let bin_n := out.2.1
  let result := out.2.2.1
  let masterF := out.2.2.2
  let placed_count := (masterF.filter (·.fit)).length
  (fitness + ((polys.length : ℚ) - (placed_count : ℚ)) * 2 + (bin_n : ℚ),
   result, masterF)

/-- The `Solution` class (GA.py).  `fitted` holds the bins of the last `nest`
run (`None` before); its Python truthiness (`if not self.fitted:`) is falsy
for `None` and for the empty list. -/
structure Solution where
  polys : List FitPoly
  mutation_rate : ℕ
  bin : FitPoly
  fitness : Option ℚ
  fitted : Option (List (List ℕ))
  rotations : ℕ
deriving DecidableEq, Repr

instance : Inhabited Solution :=
  ⟨⟨[], 0, default, none, none, 0⟩⟩

/-- The constructor arguments `Fitter_GA` passes to every `Solution` it
builds. -/
structure GAParams where
  mutation_rate : ℕ
  bin : FitPoly
  rotations : ℕ

/-- `Solution.__init__`: the polys list is deep-copied (value semantics),
`fitness` and `fitted` start as `None`. -/
def mkSolution (ga : GAParams) (polys : List FitPoly) : Solution :=
  ⟨polys, ga.mutation_rate, ga.bin, none, none, ga.rotations⟩

/-- `random_angle` (GA.py): `random.choice([i * (360/rotations) for i in
range(rotations)])`; the draw outcome is an oracle index (reduced modulo the
list length; an empty list, `rotations = 0`, would raise in Python). -/
def randomAngle (rotations : ℕ) (k : ℕ) : ℚ :=
  ((k % rotations : ℕ) : ℚ) * (360 / (rotations : ℚ))

/-- The random outcomes one index of `Solution.mutate` consumes: the two
`random.random() < 0.01 * mutation_rate` comparisons and the
`random.choice` index. -/
structure MutStep where
  doSwap : Bool
  doRot : Bool
  angleIdx : ℕ

/-- `Solution.mutate` (GA.py): for each index, optionally swap with the next
position, then optionally rotate the poly now at this index by a randomly
chosen allowed angle.  The list length is fixed throughout. -/
def Solution.mutateSol (s : Solution) (trig : TrigOracle) (o : ℕ → MutStep) :
    Solution :=
  let n := s.polys.length
  let polys := (List.range n).foldl
    (fun ps i =>
      let st := o i
      let ps1 :=
        if st.doSwap ∧ i + 1 < n then
          (ps.set i (ps.getD (i + 1) default)).set (i + 1) (ps.getD i default)
        else ps
      if st.doRot then
        ps1.set i ((ps1.getD i default).rotateFP trig (randomAngle s.rotations st.angleIdx))
      else ps1)
    s.polys
  { s with polys := polys }

/-- The mutable heap of `Solution` objects: Python references are indices
into this list.  Aliasing of Solutions (the `n = 1` crossover path returns
the parent objects themselves) is observable, so the GA layer threads this
store explicitly. -/
abbrev Store : Type := List Solution

/-- The append-if-missing loop of `Fitter_GA.__mate`: walk the other parent's
polys in order and append each one whose `id` is not yet present in the
growing child. -/
def mateChild (base : List FitPoly) (other : List FitPoly) : List FitPoly :=
  other.foldl
    (fun ch p => if ch.any (fun x => x.id == p.id) then ch else ch ++ [p])
    base

/-- `Fitter_GA.__mate` (GA.py) over the store.  With a single poly the parent
objects themselves are returned, their `fitted` flag cleared in place.
Otherwise `cutoff = random.randint(1, n - 1)` (the oracle value `cutRand` is
reduced into that range) and two fresh child Solutions are allocated. -/
def mateSt (ga : GAParams) (st : Store) (m f : ℕ) (cutRand : ℕ) :
    (ℕ × ℕ) × Store :=
  let male := st.getD m default
  let female := st.getD f default
  if male.polys.length = 1 then
    let st1 := st.set m { st.getD m default with fitted := none }
    let st2 := st1.set f { st1.getD f default with fitted := none }
    ((m, f), st2)
  else
    let cutoff := 1 + cutRand % (male.polys.length - 1)
    let c1 := mateChild (male.polys.take cutoff) female.polys
    let c2 := mateChild (female.polys.take cutoff) male.polys
    ((st.length, st.length + 1), st ++ [mkSolution ga c1, mkSolution ga c2])

/-- The sort key of `population.sort(key=lambda x: x.fitness)`: every member
has an evaluated fitness at this point (`None` would raise in Python); junk
default 0. -/
def fitKey (st : Store) (r : ℕ) : ℚ := ((st.getD r default).fitness).getD 0

/-- `np.random.choice(population, ...)` returns an element of the list; the
oracle supplies an arbitrary index, reduced modulo the length. -/
def pick (l : List ℕ) (i : ℕ) : ℕ := l.getD (i % l.length) 0

/-- The selection weights `1/(rank+1)` normalized to sum 1 (GA.py).  They
parameterize the distribution of `np.random.choice`; the draw outcomes
themselves are the oracle. -/
def selectionWeights (n : ℕ) : List ℚ :=
  let ws := (List.range n).map (fun idx => (1 : ℚ) / ((idx : ℚ) + 1))
  ws.map (· / ws.sum)

/-- The random outcomes one pass of the `while` loop of `__new_generation`
consumes: two draw indices, the crossover cut, and the two mutation
streams. -/
structure DrawStep where
  i : ℕ
  j : ℕ
  cut : ℕ
  mut1 : ℕ → MutStep
  mut2 : ℕ → MutStep

/-- The `while len(new_pop) < len(population)` loop of
`Fitter_GA.__new_generation`: draw two parents from the sorted population,
mate them, mutate and append the first child, and the second while there is
room.  `fuel` is a structural bound (each pass appends at least one ref). -/
def ngLoop (ga : GAParams) (trig : TrigOracle) (sorted : List ℕ)
    (oracle : ℕ → DrawStep) :
    ℕ → ℕ → List ℕ → Store → List ℕ × Store
  | 0, _, new_pop, st => (new_pop, st)
  | fuel + 1, step, new_pop, st =>
    if new_pop.length < sorted.length then
      let d := oracle step
      let mref := pick sorted d.i
      let fref := pick sorted d.j
      let mated := mateSt ga st mref fref d.cut
      let c1 := mated.1.1
      let c2 := mated.1.2
      let st1 := mated.2
      let st2 := st1.set c1 ((st1.getD c1 default).mutateSol trig d.mut1)
      let np1 := new_pop ++ [c1]
      let after :=
        if np1.length < sorted.length then
          (np1 ++ [c2], st2.set c2 ((st2.getD c2 default).mutateSol trig d.mut2))
        else (np1, st2)
      ngLoop ga trig sorted oracle fuel (step + 1) after.1 after.2
    else (new_pop, st)

/-- `Fitter_GA.__new_generation` (GA.py): sort the population ascending by
fitness (Python's stable sort = insertion sort on the same key), keep the
best as the first member of the new population, then fill by mating and
mutating.  An empty population would raise on `population[0]`. -/
def new_generationSt (ga : GAParams) (trig : TrigOracle)
    (oracle : ℕ → DrawStep) (st : Store) (pop : List ℕ) : List ℕ × Store :=
  let sorted := List.insertionSort (fun a b => fitKey st a ≤ fitKey st b) pop
  match sorted with
  | [] => ([], st)
  | r0 :: _ => ngLoop ga trig sorted oracle (pop.length + 1) 0 [r0] st

/-- `Solution.fit` (GA.py): run `nest` unless `fitted` is truthy; write back
the fitness, the bins and the mutated polys. -/
def Solution.fitQ (ops : GeomOps) (cache : Cache) (s : Solution) : Solution :=
  if s.fitted = none ∨ s.fitted = some [] then
    let out := nestQ ops cache s.bin.polygon s.polys
    { s with fitness := some out.1, fitted := some out.2.1, polys := out.2.2 }
  else s

/-- One generation's evaluation fan-out (`run_fit` over the chunks of the
population, GA.py): each Solution object is fitted; repeated references are
fitted once (the second call sees `fitted` set). -/
def evalPop (ops : GeomOps) (cache : Cache) (st : Store) (pop : List ℕ) :
    Store :=
  pop.foldl (fun st r => st.set r (Solution.fitQ ops cache (st.getD r default))) st

/-- The best (lowest) fitness among the referenced Solutions. -/
def bestFitness (st : Store) (pop : List ℕ) : ℚ :=
  match pop with
  | [] => 0
  | r :: rs => rs.foldl (fun acc x => min acc (fitKey st x)) (fitKey st r)

/-! Concrete instances used by witnesses and counterexamples. -/

/-- The closed exterior ring of a 500×500 axis-aligned square. -/
def sq500ring : Ring := [(0, 0), (0, 500), (500, 500), (500, 0), (0, 0)]

/-- The closed exterior ring of a 300×300 bin. -/
def bin300ring : Ring := [(0, 0), (0, 300), (300, 300), (300, 0), (0, 0)]

/-- A FitPoly carrying the 500×500 square, unrotated. -/
def sqFP : FitPoly := ⟨1, 1, sq500ring, 0, sq500ring, false, 0, idMat⟩

/-- Degenerate geometry operations (never invoked on the paths exercised by
the concrete runs below). -/
def trivOps : GeomOps := ⟨fun _ _ => .polygon [], fun _ _ => .polygon []⟩

/-- The cache for the oversized-shape scenario: every stored entry is the
Python `None` (matching `rectangle_ifp` on the oversized square). -/
def cacheNone : Cache := fun _ => none

/-- The closed exterior ring of a unit square. -/
def unitSq : Ring := [(0, 0), (0, 1), (1, 1), (1, 0), (0, 0)]

/-- The closed exterior ring of a 10×10 square. -/
def bigSq : Ring := [(0, 0), (0, 10), (10, 10), (10, 0), (0, 0)]

/-- The candidate FitPoly of the place_poly counterexample (unit square,
reference vertex at the origin). -/
def curC8 : FitPoly := ⟨2, 1, unitSq, 0, unitSq, false, 0, idMat⟩

/-- The already placed FitPoly of the place_poly counterexample (10×10
square pinning the bounding box). -/
def placedC8 : FitPoly := ⟨3, 2, bigSq, 0, bigSq, false, 0, idMat⟩

/-- The valid point set of the place_poly counterexample: three candidate
positions whose scores are 30, 30 + 0.9·TOL and 30 + 1.8·TOL with strictly
decreasing x. -/
def validC8 : Geom :=
  .lineString [(3, 3), (2, 9 + (9 / 10) * TOL), (1, 9 + (18 / 10) * TOL)]

/-- A valid point set whose two candidate positions score equally (used by
the place_poly witness). -/
def validW8 : Geom := .lineString [(2, 2), (1, 1)]

/-- A one-point candidate polygon for the place_poly witness. -/
def curW8 : FitPoly := ⟨4, 1, [(0, 0)], 0, [(0, 0)], false, 0, idMat⟩

/-- The hull oracle used by the minkowski witness (constant, hence invariant
under permutations of its input). -/
def hullZero : List Pt → List Pt := fun _ => []

/-- The bin FitPoly of the GA instances (`polygon_id = 0`). -/
def binFP : FitPoly := ⟨0, 0, bin300ring, 0, bin300ring, false, 0, idMat⟩

/-- GA constructor parameters for the concrete instances. -/
def gaC4 : GAParams := ⟨10, binFP, 1⟩

/-- A trivial trigonometry oracle (the rotation path is never taken in the
concrete runs). -/
def trivTrig : TrigOracle := ⟨fun _ => 1, fun _ => 0, fun _ => (0, 0)⟩

/-- A mutation stream in which every random comparison fails: no swaps, no
rotations. -/
def noMut : ℕ → MutStep := fun _ => ⟨false, false, 0⟩

/-- The single FitPoly of the one-polygon GA counterexample. -/
def fp1 : FitPoly := ⟨5, 1, unitSq, 0, unitSq, true, 0, idMat⟩

/-- An evaluated one-polygon Solution with fitness 1 (the elite). -/
def s1C4 : Solution := ⟨[fp1], 10, binFP, some 1, some [[0]], 1⟩

/-- An evaluated one-polygon Solution with fitness 2. -/
def s2C4 : Solution := ⟨[fp1], 10, binFP, some 2, some [[0]], 1⟩

/-- The draw oracle of the GA counterexample: always draw positions 0 and 1
of the sorted population, cut 0, no mutations. -/
def oracleC4 : ℕ → DrawStep := fun _ => ⟨0, 1, 0, noMut, noMut⟩

/-- Two FitPolys with distinct instance ids for the crossover witness. -/
def fpA : FitPoly := ⟨11, 1, unitSq, 0, unitSq, false, 0, idMat⟩

/-- Second FitPoly for the crossover witness. -/
def fpB : FitPoly := ⟨12, 2, bigSq, 0, bigSq, false, 0, idMat⟩

/-- An evaluated two-polygon Solution (male parent of the crossover
witness). -/
def maleW9 : Solution := ⟨[fpA, fpB], 10, binFP, some 1, some [[0, 1]], 1⟩

/-- The female parent of the crossover witness: same instance ids in the
opposite order. -/
def femaleW9 : Solution := ⟨[fpB, fpA], 10, binFP, some 2, some [[0, 1]], 1⟩

/-- An evaluated two-polygon Solution used by the elitism witness. -/
def s1W4 : Solution := ⟨[fpA, fpB], 10, binFP, some 1, some [[0, 1]], 1⟩

/-- Second Solution of the elitism witness. -/
def s2W4 : Solution := ⟨[fpB, fpA], 10, binFP, some 2, some [[0, 1]], 1⟩

/-- The shift that place_poly associates with one coordinate of the valid
set: the coordinate minus the candidate's reference vertex. -/
def shiftOfCoord (cur : FitPoly) (c : Pt) : Pt :=
  (c.1 - (cur.polygon.headD (0, 0)).1, c.2 - (cur.polygon.headD (0, 0)).2)

/-- The score place_poly assigns to one coordinate of the valid set. -/
def coordScore (placed : List FitPoly) (cur : FitPoly) (c : Pt) : ℚ :=
  shiftScore (placed.map (·.polygon)) cur.polygon (shiftOfCoord cur c)

/-- The conservation bookkeeping of the nest loop: the master list keeps its
length, the bins hold distinct in-range references, and a FitPoly is marked
fit exactly when its reference sits in some bin. -/
def NestInv (n : ℕ) (result : List (List ℕ)) (master : List FitPoly) : Prop :=
  master.length = n ∧
  result.flatten.Nodup ∧
  (∀ r ∈ result.flatten, r < n) ∧
  (∀ r, r < n → (((master.getD r default).fit = true) ↔ r ∈ result.flatten))

/-! Theorems. -/

/-- The reduced rotation is nonnegative. -/
theorem reduceRot_nonneg (r : ℚ) : 0 ≤ reduceRot r := by
  have h : ((⌊r / 360⌋ : ℤ) : ℚ) ≤ r / 360 := Int.floor_le _
  have h2 : ((⌊r / 360⌋ : ℤ) : ℚ) * 360 ≤ r :=
    (le_div_iff₀ (by norm_num : (0 : ℚ) < 360)).mp h
  unfold reduceRot
  linarith

/-- The reduced rotation is below 360. -/
theorem reduceRot_lt (r : ℚ) : reduceRot r < 360 := by
  have h : r / 360 < ((⌊r / 360⌋ : ℤ) : ℚ) + 1 := Int.lt_floor_add_one _
  have h2 : r < (((⌊r / 360⌋ : ℤ) : ℚ) + 1) * 360 := by
    have := (div_lt_iff₀ (by norm_num : (0 : ℚ) < 360)).mp h
    linarith
  unfold reduceRot
  linarith

/-- Reduction only strips whole multiples of 360. -/
theorem reduceRot_sub_int (r : ℚ) : ∃ k : ℤ, r - reduceRot r = 360 * k := by
  exact ⟨⌊r / 360⌋, by unfold reduceRot; ring⟩

/-- Claim C6: for every bin polygon and simple polygon, rectangle_ifp returns
null exactly when the polygon's bounding-box width exceeds the bin width or
its height exceeds the bin height; otherwise it returns the rectangle
[bin.minX + (B.ref.x − B.minX), bin.minY + (B.ref.y − B.minY)] ×
[bin.maxX − (B.maxX − B.ref.x), bin.maxY − (B.maxY − B.ref.y)] with
B.ref = B.exterior[0], as a closed corner ring. -/
theorem C6_rectangle_ifp_spec (rect poly : Ring) :
    (rectangle_ifp rect poly = none ↔
      (boundsOf poly).maxx - (boundsOf poly).minx >
          (boundsOf rect).maxx - (boundsOf rect).minx ∨
        (boundsOf poly).maxy - (boundsOf poly).miny >
          (boundsOf rect).maxy - (boundsOf rect).miny) ∧
    rectangle_ifp rect poly =
      (if (boundsOf poly).maxx - (boundsOf poly).minx >
            (boundsOf rect).maxx - (boundsOf rect).minx ∨
          (boundsOf poly).maxy - (boundsOf poly).miny >
            (boundsOf rect).maxy - (boundsOf rect).miny
       then none
       else
        some [((boundsOf rect).minx + ((poly.headD (0, 0)).1 - (boundsOf poly).minx),
               (boundsOf rect).miny + ((poly.headD (0, 0)).2 - (boundsOf poly).miny)),
              ((boundsOf rect).minx + ((poly.headD (0, 0)).1 - (boundsOf poly).minx),
               (boundsOf rect).maxy - ((boundsOf poly).maxy - (poly.headD (0, 0)).2)),
              ((boundsOf rect).maxx - ((boundsOf poly).maxx - (poly.headD (0, 0)).1),
               (boundsOf rect).maxy - ((boundsOf poly).maxy - (poly.headD (0, 0)).2)),
              ((boundsOf rect).maxx - ((boundsOf poly).maxx - (poly.headD (0, 0)).1),
               (boundsOf rect).miny + ((poly.headD (0, 0)).2 - (boundsOf poly).miny)),
              ((boundsOf rect).minx + ((poly.headD (0, 0)).1 - (boundsOf poly).minx),
               (boundsOf rect).miny + ((poly.headD (0, 0)).2 - (boundsOf poly).miny))]) := by
  constructor
  · unfold rectangle_ifp
    dsimp only
    split_ifs with h
    · simp [h]
    · simp [h]
  · unfold rectangle_ifp
    dsimp only
    split_ifs with h
    · rfl
    · simp only [Option.some.injEq, List.cons.injEq, Prod.mk.injEq, and_true]
      exact ⟨trivial, ⟨trivial, by ring⟩, ⟨by ring, by ring⟩, by ring⟩

/-- Claim C3 counterexample: the rotation pairs (rotA, rotB) = (90, 0) and
(0, 270) have relative rotations congruent modulo 360, yet produce different
cache keys; the key component for (90, 0) is −90, not
(0 − 90) mod 360 = 270 as the claim states. -/
theorem C3_counterexample :
    nestPairKey 5 7 90 0 ≠ nestPairKey 5 7 0 270 ∧
    (((0 : ℚ) - 90) - ((270 : ℚ) - 0) = 360 * (-1)) ∧
    (nestPairKey 5 7 90 0).2.2 = -90 ∧
    reduceRot ((0 : ℚ) - 90) = 270 := by
  norm_num [nestPairKey, reduceRot, Prod.ext_iff]

/-- Claim C3 (amended): both calc_nfps and nest build the pair key
(idA, idB, dRot) with dRot = (rotB mod 360) − (rotA mod 360) — not
(rotB − rotA) mod 360 — so two pairs with the same polygon ids map to the same
key whenever their separately reduced rotations agree; the reduction is the
true mod 360 (in [0, 360), differing from the input by a whole number of
turns); for bin entries idA = 0 and dRot = rotB mod 360. -/
theorem C3_cache_key_amended (idA idB : ℕ) (rA rB : ℚ) :
    nestPairKey idA idB rA rB = calcNfpsPairKey idA idB rA rB ∧
    (nestPairKey idA idB rA rB).2.2 = reduceRot rB - reduceRot rA ∧
    nestBinKey idB rB = calcNfpsBinKey 0 idB rB ∧
    (nestBinKey idB rB).1 = 0 ∧
    (nestBinKey idB rB).2.2 = reduceRot rB ∧
    0 ≤ reduceRot rB ∧ reduceRot rB < 360 ∧
    (∃ k : ℤ, rB - reduceRot rB = 360 * k) ∧
    (∀ rA2 rB2 : ℚ, reduceRot rA2 = reduceRot rA → reduceRot rB2 = reduceRot rB →
      nestPairKey idA idB rA2 rB2 = nestPairKey idA idB rA rB) := by
  refine ⟨rfl, rfl, rfl, rfl, rfl, reduceRot_nonneg rB, reduceRot_lt rB,
    reduceRot_sub_int rB, ?_⟩
  intro rA2 rB2 hA hB
  simp [nestPairKey, hA, hB]

/-- Witness for C3: the amended key-sharing law applied at
(idA, idB, rotA, rotB) = (5, 7, 90, 0) with the congruent pair (450, 360). -/
theorem C3_witness : nestPairKey 5 7 450 360 = nestPairKey 5 7 90 0 := by
  have h := C3_cache_key_amended 5 7 90 0
  exact h.2.2.2.2.2.2.2.2 450 360 (by norm_num [reduceRot]) (by norm_num [reduceRot])

/-- The x/y meshgrid sums zip back into the B-major list of pairwise vector
sums. -/
theorem zip_meshAddFlat (A B : List Pt) :
    (meshAddFlat (A.map Prod.fst) (B.map Prod.fst)).zip
      (meshAddFlat (A.map Prod.snd) (B.map Prod.snd)) =
    B.flatMap (fun b => A.map (fun a => (a.1 + b.1, a.2 + b.2))) := by
  induction B with
  | nil => simp [meshAddFlat]
  | cons b bs ih =>
    simp only [meshAddFlat, List.map_cons, List.flatMap_cons] at *
    rw [List.zip_append (by simp), ih, List.map_map, List.map_map, List.zip_map']
    simp [Function.comp]

/-- A flatMap over cons-producing functions splits permutationally into the
heads and the rest. -/
theorem flatMap_cons_perm {α β : Type} (l : List α) (g : α → β) (h : α → List β) :
    (l.flatMap (fun b => g b :: h b)).Perm (l.map g ++ l.flatMap h) := by
  induction l with
  | nil => simp
  | cons b bs ih =>
    simp only [List.flatMap_cons, List.map_cons, List.cons_append]
    refine List.Perm.cons (g b) ?_
    refine (ih.append_left (h b)).trans ?_
    exact List.perm_append_comm_assoc (h b) (bs.map g) (bs.flatMap h)

/-- Exchanging the nesting order of a double list comprehension is a
permutation. -/
theorem flatMap_transpose_perm {α β γ : Type} (A : List α) (B : List β)
    (f : α → β → γ) :
    (B.flatMap (fun b => A.map (fun a => f a b))).Perm
      (A.flatMap (fun a => B.map (fun b => f a b))) := by
  induction A with
  | nil => simp
  | cons a as ih =>
    simp only [List.map_cons]
    refine (List.Perm.trans ?_ (ih.append_left (B.map (fun b => f a b))))
    exact flatMap_cons_perm B (fun b => f a b) (fun b => as.map (fun x => f x b))

/-- Claim C7: for any hull operation invariant under permutation of its input
points (shapely's convex_hull is), minkowski_diff_nfp A B equals the hull of
all pairwise vector sums of the negation of A's exterior coordinates with B's
exterior coordinates, transformed by the affine
[-1, 0, 0, -1, B.exterior[0].x, B.exterior[0].y]. -/
theorem C7_minkowski_refines_spec (hull : List Pt → List Pt)
    (hperm : ∀ l1 l2 : List Pt, l1.Perm l2 → hull l1 = hull l2) (A B : Ring) :
    minkowski_diff_nfp hull A B =
      (hull (specPairwiseSums A B)).map
        (fun p => (-p.1 + (B.headD (0, 0)).1, -p.2 + (B.headD (0, 0)).2)) := by
  unfold minkowski_diff_nfp specPairwiseSums
  dsimp only
  rw [zip_meshAddFlat (negRing A) B]
  rw [hperm _ _ (flatMap_transpose_perm (negRing A) B (fun a b => (a.1 + b.1, a.2 + b.2)))]

/-- Witness for C7: the hull-invariance hypothesis discharged for the constant
hull at a concrete pair of rings. -/
theorem C7_witness :
    minkowski_diff_nfp hullZero [(0, 0), (0, 1), (0, 0)] [(2, 3), (2, 4), (2, 3)] =
      (hullZero (specPairwiseSums [(0, 0), (0, 1), (0, 0)] [(2, 3), (2, 4), (2, 3)])).map
        (fun p => (-p.1 + (([(2, 3), (2, 4), (2, 3)] : Ring).headD (0, 0)).1,
                   -p.2 + (([(2, 3), (2, 4), (2, 3)] : Ring).headD (0, 0)).2)) :=
  C7_minkowski_refines_spec hullZero (fun _ _ _ => rfl) _ _

/-- When every head of the list has a falsy bin IFP entry, the seed search
drops everything. -/
theorem seedSearch_all_falsy (cache : Cache) (master : List FitPoly) (l : List ℕ)
    (h : ∀ r ∈ l, entryTruthy (cache (nestBinKey (master.getD r default).polygon_id
      (master.getD r default).rotation)) = false) :
    seedSearch cache master l = ([], none) := by
  induction l with
  | nil => rfl
  | cons r rest ih =>
    have hr := h r (by simp)
    simp only [seedSearch, hr]
    simp only [Bool.false_eq_true, if_false]
    exact ih (fun x hx => h x (List.mem_cons_of_mem _ hx))

/-- Claim C2 (amended): when no input polygon's IFP entry for the bin is
truthy (none of them fits the bin at its rotation), nest drops them all from
to_place in the first pass, still appends that pass's empty placed list and
counts it: the result is one empty bin, every input unfit, and fitness
2·n + 1 (unplaced penalty plus the empty bin's bin-count penalty). -/
theorem C2_oversized_amended (ops : GeomOps) (cache : Cache) (binR : Ring)
    (polys : List FitPoly) (hne : polys ≠ [])
    (h : ∀ p ∈ polys, entryTruthy (cache (nestBinKey p.polygon_id p.rotation)) = false) :
    (nestQ ops cache binR polys).2.1 = [[]] ∧
    (nestQ ops cache binR polys).1 = 2 * (polys.length : ℚ) + 1 ∧
    (∀ q ∈ (nestQ ops cache binR polys).2.2, q.fit = false) := by
  obtain ⟨p0, ps, rfl⟩ := List.exists_cons_of_ne_nil hne
  set polys := p0 :: ps
  set master := polys.map (fun p => { p with fit := false }) with hmaster
  have hseed : seedSearch cache master (List.range polys.length) = ([], none) := by
    refine seedSearch_all_falsy cache master _ (fun r hr => ?_)
    have hrlt : r < polys.length := List.mem_range.mp hr
    have hrm : r < master.length := by simpa [hmaster] using hrlt
    have : master.getD r default = { polys[r] with fit := false } := by
      rw [List.getD_eq_getElem _ _ hrm]
      simp [hmaster]
    rw [this]
    exact h polys[r] (List.getElem_mem hrlt)
  have hlen : polys.length = ps.length + 1 := by simp [polys]
  have hloop :
      nestLoop ops cache (areaRing binR) (polys.length + 1) (List.range polys.length)
        master 0 0 [] = (0, 1, [[]], master) := by
    rw [hlen]
    have hne2 : ¬ (List.range (ps.length + 1)).isEmpty := by
      simp [List.isEmpty_iff]
    rw [show ps.length + 1 + 1 = (ps.length + 1) + 1 from rfl]
    simp only [nestLoop, hne2, if_false]
    rw [show List.range (ps.length + 1) = List.range polys.length from by rw [hlen]]
    rw [hseed]
    simp [nestLoop]
  have hfitf : ∀ q ∈ master, q.fit = false := by
    intro q hq
    simp only [hmaster, List.mem_map] at hq
    obtain ⟨a, _, rfl⟩ := hq
    rfl
  have hfilter : master.filter (·.fit) = [] := by
    rw [List.filter_eq_nil_iff]
    intro a ha
    simp [hfitf a ha]
  constructor
  · simp [nestQ, hloop]
  constructor
  · simp only [nestQ, hloop, hfilter, List.length_nil]
    push_cast
    ring
  · intro q hq
    refine hfitf q ?_
    simpa [nestQ, hloop] using hq

/-- Witness for C2: the oversized 500×500 square against the 300×300 bin, the
cache holding the (None) IFP entry computed by rectangle_ifp. -/
theorem C2_witness :
    (nestQ trivOps cacheNone bin300ring [sqFP]).2.1 = [[]] ∧
    (nestQ trivOps cacheNone bin300ring [sqFP]).1 = 2 * (([sqFP].length : ℕ) : ℚ) + 1 ∧
    (∀ q ∈ (nestQ trivOps cacheNone bin300ring [sqFP]).2.2, q.fit = false) :=
  C2_oversized_amended trivOps cacheNone bin300ring [sqFP] (by simp)
    (fun p _ => rfl)

/-- Claim C2 counterexample: on the claim's own instance (one 500×500 square,
300×300 bin) the output of nest is not zero bins but one empty bin, and the
fitness is 3 = 2·1 + 1 (the unplaced penalty plus the bin-count penalty for
the empty bin), with the square unplaced and rectangle_ifp confirming the
stored None entry. -/
theorem C2_counterexample :
    (nestQ trivOps cacheNone bin300ring [sqFP]).2.1 = [[]] ∧
    ¬ ((nestQ trivOps cacheNone bin300ring [sqFP]).2.1.length = 0) ∧
    (nestQ trivOps cacheNone bin300ring [sqFP]).1 = 3 ∧
    ((nestQ trivOps cacheNone bin300ring [sqFP]).2.2.filter (·.fit)).length = 0 ∧
    rectangle_ifp bin300ring sq500ring = none := by
  refine ⟨?_, ?_, ?_, ?_, ?_⟩ <;>
    norm_num [nestQ, nestLoop, seedSearch, nestBinKey, reduceRot, entryTruthy, cacheNone,
      sqFP, trivOps, bin300ring, sq500ring, areaRing, shoelace, candidateStep, firstPosition,
      rectangle_ifp, boundsOf, List.range_succ]

/-- Unfolding one scan step of place_poly from a recorded state. -/
theorem placeStep_some (pp : List Ring) (poly : Ring) (ref : Pt) (a : ℚ) (s : Pt)
    (c : Pt) :
    placeStep pp poly ref (some (a, s)) c =
      if shiftScore pp poly (c.1 - ref.1, c.2 - ref.2) < a ∨
          (almost_equal a (shiftScore pp poly (c.1 - ref.1, c.2 - ref.2)) ∧ c.1 - ref.1 < s.1)
      then some (shiftScore pp poly (c.1 - ref.1, c.2 - ref.2), (c.1 - ref.1, c.2 - ref.2))
      else some (a, s) := rfl

/-- Unfolding the first scan step of place_poly. -/
theorem placeStep_none (pp : List Ring) (poly : Ring) (ref : Pt) (c : Pt) :
    placeStep pp poly ref none c =
      some (shiftScore pp poly (c.1 - ref.1, c.2 - ref.2), (c.1 - ref.1, c.2 - ref.2)) := rfl

/-- The almost_equal test as a proposition. -/
theorem almost_equal_iff (a b : ℚ) : almost_equal a b = true ↔ |a - b| < TOL := by
  simp [almost_equal]

/-- TOL is positive. -/
theorem TOL_pos : (0 : ℚ) < TOL := by norm_num [TOL]

/-- The running state of the place_poly scan: starting from a recorded state,
the scan ends in a recorded state that is either the initial one or one of the
scanned candidates with its own score, and whose score exceeds neither the
initial score nor any scanned candidate's score by more than the accumulated
TOL slack. -/
theorem placeFold_inv (pp : List Ring) (poly : Ring) (ref : Pt) (cs : List Pt) :
    ∀ a s, ∃ b t,
      cs.foldl (placeStep pp poly ref) (some (a, s)) = some (b, t) ∧
      ((b = a ∧ t = s) ∨
        (t ∈ cs.map (fun c => ((c.1 - ref.1 : ℚ), (c.2 - ref.2 : ℚ))) ∧
          b = shiftScore pp poly t)) ∧
      b ≤ a + (cs.length : ℚ) * TOL ∧
      (∀ c ∈ cs, b ≤ shiftScore pp poly (c.1 - ref.1, c.2 - ref.2) +
        ((cs.length : ℚ) - 1) * TOL) := by
  induction cs with
  | nil =>
    intro a s
    exact ⟨a, s, rfl, Or.inl ⟨rfl, rfl⟩, by simp, by simp⟩
  | cons c cs ih =>
    intro a s
    have hT := TOL_pos
    have hL : (0 : ℚ) ≤ (cs.length : ℚ) := by positivity
    simp only [List.foldl_cons, placeStep_some]
    split_ifs with hcond
    · -- the state is replaced by the new candidate
      have hle : shiftScore pp poly (c.1 - ref.1, c.2 - ref.2) < a + TOL := by
        rcases hcond with h | ⟨he, _⟩
        · linarith
        · have := (almost_equal_iff _ _).mp he
          have := abs_lt.mp this
          linarith [this.2]
      obtain ⟨b, t, hfold, hmem, hbound, hall⟩ :=
        ih (shiftScore pp poly (c.1 - ref.1, c.2 - ref.2)) (c.1 - ref.1, c.2 - ref.2)
      refine ⟨b, t, hfold, ?_, ?_, ?_⟩
      · rcases hmem with ⟨hb, ht⟩ | ⟨htm, hbs⟩
        · refine Or.inr ⟨?_, ?_⟩
          · rw [ht]; exact List.mem_map_of_mem _ (List.mem_cons_self c cs)
          · rw [hb, ht]
        · exact Or.inr ⟨List.mem_map.mpr (by
            obtain ⟨x, hx, hxe⟩ := List.mem_map.mp htm
            exact ⟨x, List.mem_cons_of_mem _ hx, hxe⟩), hbs⟩
      · have hexp : ((c :: cs).length : ℚ) * TOL = (cs.length : ℚ) * TOL + TOL := by
          push_cast [List.length_cons]; ring
        linarith
      · intro x hx
        have hlen : ((c :: cs).length : ℚ) - 1 = (cs.length : ℚ) := by
          push_cast [List.length_cons]; ring
        rw [hlen]
        rcases List.mem_cons.mp hx with rfl | hx2
        · linarith
        · have := hall x hx2
          nlinarith
    · -- the state is kept
      have hge : a ≤ shiftScore pp poly (c.1 - ref.1, c.2 - ref.2) := by
        push_neg at hcond
        exact le_of_not_lt (fun hlt => absurd hlt (by simpa using hcond.1))
      obtain ⟨b, t, hfold, hmem, hbound, hall⟩ := ih a s
      refine ⟨b, t, hfold, ?_, ?_, ?_⟩
      · rcases hmem with ⟨hb, ht⟩ | ⟨htm, hbs⟩
        · exact Or.inl ⟨hb, ht⟩
        · exact Or.inr ⟨List.mem_map.mpr (by
            obtain ⟨x, hx, hxe⟩ := List.mem_map.mp htm
            exact ⟨x, List.mem_cons_of_mem _ hx, hxe⟩), hbs⟩
      · have hexp : ((c :: cs).length : ℚ) * TOL = (cs.length : ℚ) * TOL + TOL := by
          push_cast [List.length_cons]; ring
        linarith
      · intro x hx
        have hlen : ((c :: cs).length : ℚ) - 1 = (cs.length : ℚ) := by
          push_cast [List.length_cons]; ring
        rw [hlen]
        rcases List.mem_cons.mp hx with rfl | hx2
        · linarith
        · have := hall x hx2
          nlinarith

/-- The place_poly scan under TOL-separated scores: starting from a recorded
candidate, the scan returns a recorded candidate achieving the exact minimum
score over the start and everything scanned, with the smallest shift x among
the exact minimizers. -/
theorem placeFold_sep (pp : List Ring) (poly : Ring) (ref : Pt) (coords : List Pt)
    (Hsep : ∀ c1 ∈ coords, ∀ c2 ∈ coords,
      shiftScore pp poly (c1.1 - ref.1, c1.2 - ref.2) =
          shiftScore pp poly (c2.1 - ref.1, c2.2 - ref.2) ∨
        TOL ≤ |shiftScore pp poly (c1.1 - ref.1, c1.2 - ref.2) -
          shiftScore pp poly (c2.1 - ref.1, c2.2 - ref.2)|) :
    ∀ cs : List Pt, cs.Sublist coords → ∀ d ∈ coords,
      ∃ b t,
        cs.foldl (placeStep pp poly ref)
          (some (shiftScore pp poly (d.1 - ref.1, d.2 - ref.2),
            (d.1 - ref.1, d.2 - ref.2))) = some (b, t) ∧
        (∃ e ∈ coords, b = shiftScore pp poly (e.1 - ref.1, e.2 - ref.2) ∧
          t = (e.1 - ref.1, e.2 - ref.2)) ∧
        b ≤ shiftScore pp poly (d.1 - ref.1, d.2 - ref.2) ∧
        (∀ c ∈ cs, b ≤ shiftScore pp poly (c.1 - ref.1, c.2 - ref.2)) ∧
        (shiftScore pp poly (d.1 - ref.1, d.2 - ref.2) = b → t.1 ≤ d.1 - ref.1) ∧
        (∀ c ∈ cs, shiftScore pp poly (c.1 - ref.1, c.2 - ref.2) = b →
          t.1 ≤ c.1 - ref.1) := by
  intro cs
  induction cs with
  | nil =>
    intro _ d hd
    exact ⟨_, _, rfl, ⟨d, hd, rfl, rfl⟩, le_refl _, by simp, fun _ => le_refl _, by simp⟩
  | cons c cs ih =>
    intro hsub d hd
    have hc : c ∈ coords := hsub.subset (List.mem_cons_self c cs)
    have hsub2 : cs.Sublist coords := (List.sublist_cons_self c cs).trans hsub
    simp only [List.foldl_cons, placeStep_some]
    rcases Hsep d hd c hc with heq | hsep
    · split_ifs with hcond
      · -- equal scores and smaller x: the state moves to c
        have hx : c.1 - ref.1 < d.1 - ref.1 := by
          rcases hcond with h | ⟨_, h⟩
          · exact absurd h (by rw [heq]; exact lt_irrefl _)
          · exact h
        obtain ⟨b, t, hfold, hex, hled, hall, himp, hallimp⟩ := ih hsub2 c hc
        refine ⟨b, t, hfold, hex, by rw [heq]; exact hled, ?_, ?_, ?_⟩
        · intro x hx2
          rcases List.mem_cons.mp hx2 with rfl | hx3
          · exact hled
          · exact hall x hx3
        · intro hgd
          have : t.1 ≤ c.1 - ref.1 := himp (by rw [← heq]; exact hgd)
          linarith
        · intro x hx2
          rcases List.mem_cons.mp hx2 with rfl | hx3
          · exact himp
          · exact hallimp x hx3
      · -- equal scores, x not smaller: the state is kept
        push_neg at hcond
        have hxge : d.1 - ref.1 ≤ c.1 - ref.1 := by
          by_contra hlt
          push_neg at hlt
          exact absurd (hcond.2 (by rw [almost_equal_iff, heq]; simpa using TOL_pos)) (by
            simpa using hlt)
        obtain ⟨b, t, hfold, hex, hled, hall, himp, hallimp⟩ := ih hsub2 d hd
        refine ⟨b, t, hfold, hex, hled, ?_, himp, ?_⟩
        · intro x hx2
          rcases List.mem_cons.mp hx2 with rfl | hx3
          · rw [← heq]; exact hled
          · exact hall x hx3
        · intro x hx2
          rcases List.mem_cons.mp hx2 with rfl | hx3
          · intro hgx
            have := himp (by rw [heq]; exact hgx)
            linarith
          · exact hallimp x hx3
    · -- TOL-separated scores: the comparison is exact
      have hae : ¬ (almost_equal (shiftScore pp poly (d.1 - ref.1, d.2 - ref.2))
          (shiftScore pp poly (c.1 - ref.1, c.2 - ref.2)) = true) := by
        rw [almost_equal_iff]
        linarith
      split_ifs with hcond
      · have hlt : shiftScore pp poly (c.1 - ref.1, c.2 - ref.2) <
            shiftScore pp poly (d.1 - ref.1, d.2 - ref.2) := by
          rcases hcond with h | ⟨h, _⟩
          · exact h
          · exact absurd h hae
        obtain ⟨b, t, hfold, hex, hled, hall, himp, hallimp⟩ := ih hsub2 c hc
        refine ⟨b, t, hfold, hex, by linarith, ?_, ?_, ?_⟩
        · intro x hx2
          rcases List.mem_cons.mp hx2 with rfl | hx3
          · exact hled
          · exact hall x hx3
        · intro hgd
          exfalso
          linarith [hled, hgd.ge, hgd.le]
        · intro x hx2
          rcases List.mem_cons.mp hx2 with rfl | hx3
          · exact himp
          · exact hallimp x hx3
      · push_neg at hcond
        have hgt : shiftScore pp poly (d.1 - ref.1, d.2 - ref.2) <
            shiftScore pp poly (c.1 - ref.1, c.2 - ref.2) := by
          rcases lt_trichotomy (shiftScore pp poly (d.1 - ref.1, d.2 - ref.2))
              (shiftScore pp poly (c.1 - ref.1, c.2 - ref.2)) with h | h | h
          · exact h
          · exfalso; rw [h] at hsep; simp at hsep; linarith [TOL_pos]
          · exact absurd h (not_lt.mpr hcond.1)
        obtain ⟨b, t, hfold, hex, hled, hall, himp, hallimp⟩ := ih hsub2 d hd
        refine ⟨b, t, hfold, hex, hled, ?_, himp, ?_⟩
        · intro x hx2
          rcases List.mem_cons.mp hx2 with rfl | hx3
          · linarith
          · exact hall x hx3
        · intro x hx2
          rcases List.mem_cons.mp hx2 with rfl | hx3
          · intro hgx
            exfalso
            linarith
          · exact hallimp x hx3

/-- Claim C8 (amended): place_poly returns null exactly when valid is falsy or
contributes no coordinate; otherwise it returns one of the shifts
v − candidate.ref enumerated from valid, chosen by a left-to-right scan that
replaces the incumbent when the new score is smaller or within TOL of the
incumbent with smaller shift.x.  The chosen shift's score is within
(k − 1)·TOL of every candidate's score (k = number of coordinates) but need
not be the exact minimum; when every pair of candidate scores is equal or at
least TOL apart, it is the exact minimum and has the smallest shift.x among
the exact minimizers. -/
theorem C8_place_poly_amended (v : Geom) (placed : List FitPoly) (cur : FitPoly) :
    (place_poly none placed cur = none) ∧
    (place_poly (some v) placed cur = none ↔ v.isEmptyG = true ∨ validCoords v = []) ∧
    (∀ σ, place_poly (some v) placed cur = some σ →
      σ ∈ (validCoords v).map (shiftOfCoord cur) ∧
      ∀ c ∈ validCoords v,
        shiftScore (placed.map (·.polygon)) cur.polygon σ ≤
          coordScore placed cur c + (((validCoords v).length : ℚ) - 1) * TOL) ∧
    ((∀ c1 ∈ validCoords v, ∀ c2 ∈ validCoords v,
        coordScore placed cur c1 = coordScore placed cur c2 ∨
        TOL ≤ |coordScore placed cur c1 - coordScore placed cur c2|) →
      ∀ σ, place_poly (some v) placed cur = some σ →
        (∀ c ∈ validCoords v,
          shiftScore (placed.map (·.polygon)) cur.polygon σ ≤ coordScore placed cur c) ∧
        (∀ c ∈ validCoords v,
          coordScore placed cur c = shiftScore (placed.map (·.polygon)) cur.polygon σ →
            σ.1 ≤ (shiftOfCoord cur c).1)) := by
  have hT := TOL_pos
  refine ⟨rfl, ?_, ?_, ?_⟩
  · by_cases hemp : v.isEmptyG
    · simp [place_poly, hemp]
    · rcases hcs : validCoords v with _ | ⟨c0, cs⟩
      · simp [place_poly, hemp, hcs]
      · simp only [place_poly, hemp, Bool.false_eq_true, if_false, hcs]
        obtain ⟨b, t, hfold, _, _, _⟩ :=
          placeFold_inv (placed.map (·.polygon)) cur.polygon
            (cur.polygon.headD (0, 0)) cs
            (shiftScore (placed.map (·.polygon)) cur.polygon
              (c0.1 - (cur.polygon.headD (0, 0)).1, c0.2 - (cur.polygon.headD (0, 0)).2))
            (c0.1 - (cur.polygon.headD (0, 0)).1, c0.2 - (cur.polygon.headD (0, 0)).2)
        rw [List.foldl_cons, placeStep_none, hfold]
        simp [hemp, hcs]
  · intro σ hσ
    by_cases hemp : v.isEmptyG
    · simp [place_poly, hemp] at hσ
    rcases hcs : validCoords v with _ | ⟨c0, cs⟩
    · simp [place_poly, hemp, hcs] at hσ
    · simp only [place_poly, hemp, Bool.false_eq_true, if_false, hcs, List.foldl_cons,
        placeStep_none] at hσ
      obtain ⟨b, t, hfold, hmem, hbound, hall⟩ :=
        placeFold_inv (placed.map (·.polygon)) cur.polygon
          (cur.polygon.headD (0, 0)) cs
          (shiftScore (placed.map (·.polygon)) cur.polygon
            (c0.1 - (cur.polygon.headD (0, 0)).1, c0.2 - (cur.polygon.headD (0, 0)).2))
          (c0.1 - (cur.polygon.headD (0, 0)).1, c0.2 - (cur.polygon.headD (0, 0)).2)
      rw [hfold] at hσ
      replace hσ : σ = t := by simpa using hσ.symm
      subst hσ
      have hbt : b = shiftScore (placed.map (·.polygon)) cur.polygon σ := by
        rcases hmem with ⟨hb, ht⟩ | ⟨_, hbs⟩
        · rw [hb, ht]
        · exact hbs
      constructor
      · rcases hmem with ⟨_, ht⟩ | ⟨htm, _⟩
        · rw [ht]
          exact List.mem_map_of_mem _ (List.mem_cons_self c0 cs)
        · simp only [List.map_cons]
          refine List.mem_cons_of_mem _ ?_
          simpa [shiftOfCoord] using htm
      · intro c hcmem
        have hlen : (((c0 :: cs).length : ℚ) - 1) = (cs.length : ℚ) := by
          push_cast [List.length_cons]; ring
        rw [hlen]
        rcases List.mem_cons.mp hcmem with rfl | hc2
        · rw [← hbt]
          simpa [coordScore, shiftOfCoord] using hbound
        · rw [← hbt]
          have := hall c hc2
          have hle2 : ((cs.length : ℚ) - 1) * TOL ≤ (cs.length : ℚ) * TOL := by
            nlinarith
          simp only [coordScore, shiftOfCoord]
          linarith
  · intro Hsep σ hσ
    by_cases hemp : v.isEmptyG
    · simp [place_poly, hemp] at hσ
    rcases hcs : validCoords v with _ | ⟨c0, cs⟩
    · simp [place_poly, hemp, hcs] at hσ
    · simp only [place_poly, hemp, Bool.false_eq_true, if_false, hcs, List.foldl_cons,
        placeStep_none] at hσ
      have Hsep2 : ∀ c1 ∈ validCoords v, ∀ c2 ∈ validCoords v,
          shiftScore (placed.map (·.polygon)) cur.polygon
              (c1.1 - (cur.polygon.headD (0, 0)).1, c1.2 - (cur.polygon.headD (0, 0)).2) =
            shiftScore (placed.map (·.polygon)) cur.polygon
              (c2.1 - (cur.polygon.headD (0, 0)).1, c2.2 - (cur.polygon.headD (0, 0)).2) ∨
          TOL ≤ |shiftScore (placed.map (·.polygon)) cur.polygon
              (c1.1 - (cur.polygon.headD (0, 0)).1, c1.2 - (cur.polygon.headD (0, 0)).2) -
            shiftScore (placed.map (·.polygon)) cur.polygon
              (c2.1 - (cur.polygon.headD (0, 0)).1, c2.2 - (cur.polygon.headD (0, 0)).2)| := by
        intro c1 h1 c2 h2
        simpa [coordScore, shiftOfCoord] using Hsep c1 h1 c2 h2
      rw [hcs] at Hsep2
      obtain ⟨b, t, hfold, hex, hled, hall, himp, hallimp⟩ :=
        placeFold_sep (placed.map (·.polygon)) cur.polygon
          (cur.polygon.headD (0, 0)) (c0 :: cs) Hsep2 cs
          (List.sublist_cons_self c0 cs) c0 (List.mem_cons_self c0 cs)
      rw [hfold] at hσ
      replace hσ : σ = t := by simpa using hσ.symm
      subst hσ
      have hbt : b = shiftScore (placed.map (·.polygon)) cur.polygon σ := by
        obtain ⟨e, _, hbe, hte⟩ := hex
        rw [hbe, hte]
      constructor
      · intro c hcmem
        rw [← hbt]
        rcases List.mem_cons.mp hcmem with rfl | hc2
        · simpa [coordScore, shiftOfCoord] using hled
        · simpa [coordScore, shiftOfCoord] using hall c hc2
      · intro c hcmem hceq
        rw [← hbt] at hceq
        rcases List.mem_cons.mp hcmem with rfl | hc2
        · simpa [shiftOfCoord] using himp (by simpa [coordScore, shiftOfCoord] using hceq)
        · simpa [shiftOfCoord] using
            hallimp c hc2 (by simpa [coordScore, shiftOfCoord] using hceq)

/-- Witness for C8: a two-point valid set with equal scores; the scan returns
the smaller-x shift, which is the exact minimizer. -/
theorem C8_witness :
    place_poly (some validW8) [] curW8 = some (1, 1) ∧
    (∀ c ∈ validCoords validW8,
      shiftScore ([].map (FitPoly.polygon)) curW8.polygon (1, 1) ≤
        coordScore [] curW8 c) := by
  have heval : place_poly (some validW8) [] curW8 = some (1, 1) := by
    norm_num [place_poly, validW8, validCoords, placeStep, shiftScore, scoreOf, boundsOf,
      almost_equal, TOL, abs_lt, curW8, Geom.isEmptyG]
  have h := (C8_place_poly_amended validW8 [] curW8).2.2.2
    (by
      have hval : ∀ c ∈ validCoords validW8, coordScore [] curW8 c = 0 := by
        intro c hc
        simp only [validW8, validCoords, List.mem_cons, List.not_mem_nil, or_false] at hc
        rcases hc with rfl | rfl <;>
          norm_num [coordScore, shiftOfCoord, shiftScore, scoreOf, boundsOf, curW8]
      intro c1 h1 c2 h2
      left
      rw [hval c1 h1, hval c2 h2])
    (1, 1) heval
  exact ⟨heval, h.1⟩

/-- Claim C8 counterexample: three candidate positions with scores
30, 30 + 0.9·TOL, 30 + 1.8·TOL at decreasing x; the scan's TOL-chaining
returns the third, whose score exceeds the exact minimizer's by 1.8·TOL >
TOL, so place_poly does not return the score-minimizing shift (even up to a
single TOL tie). -/
theorem C8_counterexample :
    place_poly (some validC8) [placedC8] curC8 = some (1, 9 + (18 / 10) * TOL) ∧
    (3, 3) ∈ (validCoords validC8).map (shiftOfCoord curC8) ∧
    shiftScore ([placedC8].map (FitPoly.polygon)) curC8.polygon (3, 3) + TOL <
      shiftScore ([placedC8].map (FitPoly.polygon)) curC8.polygon
        (1, 9 + (18 / 10) * TOL) := by
  refine ⟨?_, ?_, ?_⟩ <;>
    norm_num [place_poly, validC8, validCoords, placeStep, shiftScore, scoreOf, boundsOf,
      almost_equal, TOL, abs_lt, curC8, placedC8, unitSq, bigSq, Geom.isEmptyG, shiftOfCoord]

/-- The two outcomes of one candidate placement step of nest: either nothing
changes, or the candidate alone is translated, marked fit and appended. -/
theorem candidateStep_cases (ops : GeomOps) (cache : Cache) (bin_n : ℕ)
    (placed : List ℕ) (master : List FitPoly) (r : ℕ) :
    candidateStep ops cache bin_n (placed, master) r = (placed, master) ∨
    ∃ t, candidateStep ops cache bin_n (placed, master) r =
      (placed ++ [r], master.set r
        { (master.getD r default).translateFP t with fit := true, bin_n := bin_n }) := by
  unfold candidateStep
  dsimp only
  split_ifs with h
  · generalize place_poly
      (match fullNfpOf ops cache master placed (master.getD r default) with
        | some f => validOf ops f
            ((cache (nestBinKey (master.getD r default).polygon_id
              (master.getD r default).rotation)).getD (Geom.polygon []))
        | none => none)
      (placed.map (fun pr => master.getD pr default)) (master.getD r default) = pl
    cases pl with
    | none => exact Or.inl rfl
    | some t => exact Or.inr ⟨t, rfl⟩
  · exact Or.inl rfl

/-- Claim C10: place_poly depends only on the polygon values of its arguments
(it deep-copies the candidate and only reads), returning just the chosen
translation; at the call site in nest, the only state change of a placement
step is the caller applying that translation to the candidate (plus the fit
flags), and every other FitPoly is untouched. -/
theorem C10_place_poly_frame (v : Option Geom) (placed placed2 : List FitPoly)
    (cur cur2 : FitPoly) (ops : GeomOps) (cache : Cache) (bin_n : ℕ)
    (plRefs : List ℕ) (master : List FitPoly) (r : ℕ) :
    (placed.map (·.polygon) = placed2.map (·.polygon) → cur.polygon = cur2.polygon →
      place_poly v placed cur = place_poly v placed2 cur2) ∧
    (candidateStep ops cache bin_n (plRefs, master) r = (plRefs, master) ∨
      ∃ t, candidateStep ops cache bin_n (plRefs, master) r =
        (plRefs ++ [r], master.set r
          { (master.getD r default).translateFP t with fit := true, bin_n := bin_n })) ∧
    (∀ q, q ≠ r →
      (candidateStep ops cache bin_n (plRefs, master) r).2.getD q default =
        master.getD q default) := by
  refine ⟨?_, candidateStep_cases ops cache bin_n plRefs master r, ?_⟩
  · intro h1 h2
    cases v with
    | none => rfl
    | some g => simp only [place_poly, h1, h2]
  · intro q hq
    rcases candidateStep_cases ops cache bin_n plRefs master r with h | ⟨t, h⟩
    · rw [h]
    · rw [h]
      dsimp only
      rw [List.getD_eq_getElem?_getD, List.getElem?_set_ne (Ne.symm hq),
        ← List.getD_eq_getElem?_getD]

/-- Witness for C10: the read-only dependence and the frame applied at a
concrete call. -/
theorem C10_witness :
    place_poly (some validW8) [placedC8] curC8 = place_poly (some validW8) [placedC8] curC8 ∧
    (candidateStep trivOps cacheNone 0 ([], [sqFP]) 0).2.getD 1 default =
      ([sqFP] : List FitPoly).getD 1 default := by
  have h := C10_place_poly_frame (some validW8) [placedC8] [placedC8] curC8 curC8
    trivOps cacheNone 0 [] [sqFP] 0
  exact ⟨h.1 rfl rfl, h.2.2 1 (by norm_num)⟩

/-- Unfolding one step of the seed search. -/
theorem seedSearch_cons (cache : Cache) (master : List FitPoly) (r : ℕ)
    (rest : List ℕ) :
    seedSearch cache master (r :: rest) =
      if entryTruthy (cache (nestBinKey (master.getD r default).polygon_id
          (master.getD r default).rotation))
      then (r :: rest, cache (nestBinKey (master.getD r default).polygon_id
          (master.getD r default).rotation))
      else seedSearch cache master rest := rfl

/-- The seed search returns a sublist of its input, which is empty exactly
when no geometry was found. -/
theorem seedSearch_spec (cache : Cache) (master : List FitPoly) (l : List ℕ) :
    (seedSearch cache master l).1.Sublist l ∧
    ((seedSearch cache master l).2 = none → (seedSearch cache master l).1 = []) ∧
    ((seedSearch cache master l).2 ≠ none → (seedSearch cache master l).1 ≠ []) := by
  induction l with
  | nil => exact ⟨List.Sublist.refl _, fun _ => rfl, fun h => absurd rfl h⟩
  | cons r rest ih =>
    rw [seedSearch_cons]
    split_ifs with h
    · refine ⟨List.Sublist.refl _, fun he => ?_, fun _ => by simp⟩
      have he2 : cache (nestBinKey (master.getD r default).polygon_id
          (master.getD r default).rotation) = none := he
      rw [he2] at h
      simp [entryTruthy] at h
    · exact ⟨ih.1.trans (List.sublist_cons_self r rest), ih.2.1, ih.2.2⟩

/-- The subsequent-placement fold of nest: it appends a distinct selection of
the processed candidates to placed, flips their fit flags, and leaves every
other FitPoly untouched. -/
theorem candFold_spec (ops : GeomOps) (cache : Cache) (b : ℕ) (rest : List ℕ) :
    ∀ placed master, rest.Nodup → (∀ r ∈ rest, r < (master : List FitPoly).length) →
    ∃ extra : List ℕ,
      (rest.foldl (candidateStep ops cache b) (placed, master)).1 = placed ++ extra ∧
      extra.Sublist rest ∧
      (rest.foldl (candidateStep ops cache b) (placed, master)).2.length = master.length ∧
      (∀ q, q ∉ extra →
        (rest.foldl (candidateStep ops cache b) (placed, master)).2.getD q default =
          master.getD q default) ∧
      (∀ q ∈ extra,
        ((rest.foldl (candidateStep ops cache b) (placed, master)).2.getD q default).fit
          = true) := by
  induction rest with
  | nil =>
    intro placed master _ _
    exact ⟨[], by simp, List.nil_sublist _, rfl, fun _ _ => rfl, by simp⟩
  | cons r rs ih =>
    intro placed master hnd hlt
    rw [List.foldl_cons]
    rcases candidateStep_cases ops cache b placed master r with hstep | ⟨t, hstep⟩
    · rw [hstep]
      obtain ⟨extra, h1, h2, h3, h4, h5⟩ :=
        ih placed master hnd.of_cons (fun x hx => hlt x (List.mem_cons_of_mem _ hx))
      exact ⟨extra, h1, h2.cons r, h3, h4, h5⟩
    · rw [hstep]
      have hrlt : r < master.length := hlt r (List.mem_cons_self r rs)
      have hlen2 : (master.set r
          { (master.getD r default).translateFP t with fit := true, bin_n := b }).length =
          master.length := by simp
      obtain ⟨extra, h1, h2, h3, h4, h5⟩ :=
        ih (placed ++ [r])
          (master.set r { (master.getD r default).translateFP t with fit := true, bin_n := b })
          hnd.of_cons
          (fun x hx => by rw [hlen2]; exact hlt x (List.mem_cons_of_mem _ hx))
      have hrns : r ∉ rs := (List.nodup_cons.mp hnd).1
      have hrex : r ∉ extra := fun hre => hrns (h2.subset hre)
      refine ⟨r :: extra, ?_, h2.cons₂ r, by rw [h3, hlen2], ?_, ?_⟩
      · rw [h1]
        simp
      · intro q hq
        have hqr : q ≠ r := fun he => hq (he ▸ List.mem_cons_self r extra)
        have hqe : q ∉ extra := fun he => hq (List.mem_cons_of_mem _ he)
        rw [h4 q hqe, List.getD_eq_getElem?_getD, List.getElem?_set_ne (Ne.symm hqr),
          ← List.getD_eq_getElem?_getD]
      · intro q hq
        rcases List.mem_cons.mp hq with rfl | hq2
        · rw [h4 q hrex, List.getD_eq_getElem?_getD, List.getElem?_set_self hrlt]
          rfl
        · exact h5 q hq2

/-- The removal loop of nest (pop each placed poly at its index) is the list
difference. -/
theorem foldl_erase_eq_diff (xs l : List ℕ) :
    xs.foldl (fun acc r => acc.erase r) l = l.diff xs := by
  induction xs generalizing l with
  | nil => simp
  | cons x xs ih => rw [List.foldl_cons, List.diff_cons, ih]

/-- The invariant of the outer bin-opening loop of nest. -/
theorem nestLoop_inv (ops : GeomOps) (cache : Cache) (ba : ℚ) (n : ℕ) :
    ∀ fuel to_place master bin_n fitness result,
    to_place.length < fuel →
    to_place.Nodup →
    (∀ r ∈ to_place, r < n) →
    (∀ r ∈ to_place, r ∉ result.flatten) →
    NestInv n result master →
    NestInv n (nestLoop ops cache ba fuel to_place master bin_n fitness result).2.2.1
      (nestLoop ops cache ba fuel to_place master bin_n fitness result).2.2.2 := by
  intro fuel
  induction fuel with
  | zero =>
    intro to_place master bin_n fitness result hfuel
    exact absurd hfuel (Nat.not_lt_zero _)
  | succ fuel ih =>
    intro to_place master bin_n fitness result hfuel hnd hsub hdisj hinv
    obtain ⟨hlen, hresnd, hressub, hfit⟩ := hinv
    have hTpos : 0 < to_place.length ∨ to_place.isEmpty := by
      rcases to_place with _ | ⟨a, l⟩
      · exact Or.inr rfl
      · exact Or.inl (by simp)
    by_cases hemp : to_place.isEmpty
    · simp only [nestLoop, hemp, if_true]
      exact ⟨hlen, hresnd, hressub, hfit⟩
    · have hpos : 0 < to_place.length := by
        rcases hTpos with h | h
        · exact h
        · exact absurd h hemp
      simp only [nestLoop, hemp, Bool.false_eq_true, if_false]
      try dsimp only
      obtain ⟨hsubl, hnone, hsome⟩ := seedSearch_spec cache master to_place
      rcases hsr : seedSearch cache master to_place with ⟨tp, o⟩
      rw [hsr] at hsubl hnone hsome
      have hsubl2 : tp.Sublist to_place := hsubl
      have htpnd : tp.Nodup := hsubl2.nodup hnd
      cases o with
      | none =>
        have htp : tp = [] := hnone rfl
        subst htp
        try dsimp only
        simp only [List.drop_nil, List.foldl_nil]
        have hfl : (result ++ [([] : List ℕ)]).flatten = result.flatten := by simp
        apply ih
        · simp only [List.length_nil]
          omega
        · simp
        · simp
        · simp
        · exact ⟨hlen, by rw [hfl]; exact hresnd,
            by rw [hfl]; exact hressub,
            fun r hr => by rw [hfl]; exact hfit r hr⟩
      | some g =>
        have htp : tp ≠ [] := hsome (by simp)
        obtain ⟨s, tpr, rfl⟩ := List.exists_cons_of_ne_nil htp
        have hsmem : s ∈ to_place := hsubl2.subset (List.mem_cons_self s tpr)
        have hsn : s < n := hsub s hsmem
        have hslen : s < master.length := by rw [hlen]; exact hsn
        have hsntpr : s ∉ tpr := (List.nodup_cons.mp htpnd).1
        have htprnd : tpr.Nodup := htpnd.of_cons
        have htprsub : ∀ x ∈ tpr, x ∈ to_place := fun x hx =>
          hsubl2.subset (List.mem_cons_of_mem _ hx)
        try dsimp only
        simp only [List.headD_cons, List.drop_succ_cons, List.drop_zero]
        obtain ⟨extra, h1, h2, h3, h4, h5⟩ :=
          candFold_spec ops cache bin_n tpr [s]
            (master.set s
              { (master.getD s default).translateFP
                  ((firstPosition (exteriorExt g)
                    ((master.getD s default).polygon.headD (0, 0))).getD (0, 0)) with
                fit := true, bin_n := bin_n })
            htprnd
            (fun x hx => by
              rw [List.length_set, hlen]
              exact hsub x (htprsub x hx))
        have hexsub : ∀ x ∈ extra, x ∈ tpr := fun x hx => h2.subset hx
        have hsnex : s ∉ extra := fun hx => hsntpr (hexsub s hx)
        have hplaced : ([s] ++ extra : List ℕ) = s :: extra := by simp
        rw [h1, hplaced, foldl_erase_eq_diff, List.diff_cons, List.erase_cons_head]
        have hflat : (result ++ [s :: extra]).flatten = result.flatten ++ (s :: extra) := by
          simp
        have hmem_iff : ∀ q, q ∈ tpr.diff extra ↔ q ∈ tpr ∧ q ∉ extra :=
          fun q => htprnd.mem_diff_iff
        apply ih
        · have hd1 : (tpr.diff extra).length ≤ tpr.length :=
            (List.diff_sublist _ _).length_le
          have hd2 : tpr.length + 1 ≤ to_place.length := by
            simpa using hsubl2.length_le
          omega
        · exact htprnd.diff
        · intro r hr
          exact hsub r (htprsub r ((hmem_iff r).mp hr).1)
        · intro r hr
          rw [hflat]
          obtain ⟨hrtpr, hrex⟩ := (hmem_iff r).mp hr
          intro hcon
          rcases List.mem_append.mp hcon with hcon2 | hcon2
          · exact hdisj r (htprsub r hrtpr) hcon2
          · rcases List.mem_cons.mp hcon2 with rfl | hcon3
            · exact hsntpr hrtpr
            · exact hrex hcon3
        · refine ⟨by rw [h3, List.length_set, hlen], ?_, ?_, ?_⟩
          · rw [hflat]
            rw [List.nodup_append]
            refine ⟨hresnd, List.nodup_cons.mpr ⟨hsnex, h2.nodup htprnd⟩, ?_⟩
            intro a ha hb
            rcases List.mem_cons.mp hb with rfl | hb2
            · exact hdisj a hsmem ha
            · exact hdisj a (htprsub a (hexsub a hb2)) ha
          · intro r hr
            rw [hflat] at hr
            rcases List.mem_append.mp hr with h | h
            · exact hressub r h
            · rcases List.mem_cons.mp h with rfl | h6
              · exact hsn
              · exact hsub r (htprsub r (hexsub r h6))
          · intro r hrn
            rw [hflat]
            by_cases hrse : r ∈ (s :: extra : List ℕ)
            · constructor
              · intro _
                exact List.mem_append.mpr (Or.inr hrse)
              · intro _
                rcases List.mem_cons.mp hrse with rfl | hrex2
                · rw [h4 r hsnex, List.getD_eq_getElem?_getD,
                    List.getElem?_set_self hslen]
                  rfl
                · exact h5 r hrex2
            · have hrs : r ≠ s := fun he => hrse (he ▸ List.mem_cons_self s extra)
              have hrex2 : r ∉ extra := fun he => hrse (List.mem_cons_of_mem _ he)
              rw [h4 r hrex2, List.getD_eq_getElem?_getD,
                List.getElem?_set_ne (Ne.symm hrs), ← List.getD_eq_getElem?_getD]
              rw [hfit r hrn]
              constructor
              · intro h7
                exact List.mem_append.mpr (Or.inl h7)
              · intro h7
                rcases List.mem_append.mp h7 with h8 | h8
                · exact h8
                · exact absurd h8 hrse

/-- A duplicate-free selection from a duplicate-free list, concatenated with
the complementary filter, is a permutation of the list. -/
theorem perm_partition (l F : List ℕ) (hl : l.Nodup) (hF : F.Nodup)
    (hsub : ∀ x ∈ F, x ∈ l) :
    (F ++ l.filter (fun r => decide (r ∉ F))).Perm l := by
  rw [List.perm_iff_count]
  intro a
  rw [List.count_append]
  by_cases ha : a ∈ F
  · rw [List.count_eq_one_of_mem hF ha, List.count_eq_one_of_mem hl (hsub a ha)]
    have hfil : (l.filter (fun r => decide (r ∉ F))).count a = 0 := by
      apply List.count_eq_zero_of_not_mem
      intro hmem
      have h2 := (List.mem_filter.mp hmem).2
      simp only [decide_eq_true_eq] at h2
      exact h2 ha
    rw [hfil]
  · rw [List.count_eq_zero_of_not_mem ha, List.count_filter (by simpa using ha)]
    omega

/-- Claim C5: every input FitPoly ends up either in exactly one output bin
(marked fit) or unplaced (not fit): the bins hold pairwise distinct in-range
references, a FitPoly's fit flag is set exactly when it sits in a bin, and
the references across all bins together with the unfit ones are a permutation
of all inputs — for every geometry oracle and cache. -/
theorem C5_nest_conservation (ops : GeomOps) (cache : Cache) (binR : Ring)
    (polys : List FitPoly) :
    (nestQ ops cache binR polys).2.2.length = polys.length ∧
    (nestQ ops cache binR polys).2.1.flatten.Nodup ∧
    (∀ r ∈ (nestQ ops cache binR polys).2.1.flatten, r < polys.length) ∧
    (∀ r, r < polys.length →
      ((((nestQ ops cache binR polys).2.2.getD r default).fit = true) ↔
        r ∈ (nestQ ops cache binR polys).2.1.flatten)) ∧
    ((nestQ ops cache binR polys).2.1.flatten ++
        (List.range polys.length).filter
          (fun r => !((nestQ ops cache binR polys).2.2.getD r default).fit)).Perm
      (List.range polys.length) := by
  have hinv := nestLoop_inv ops cache (areaRing binR) polys.length
    (polys.length + 1) (List.range polys.length)
    (polys.map (fun p => { p with fit := false })) 0 0 []
    (by simp) (List.nodup_range _) (fun r hr => List.mem_range.mp hr)
    (by simp)
    ⟨by simp, List.nodup_nil, by simp,
      fun r hr => by
        rw [List.getD_eq_getElem _ _ (by simpa using hr), List.getElem_map]
        simp⟩
  obtain ⟨hlen, hnd, hsubF, hfit⟩ := hinv
  have houtr : (nestQ ops cache binR polys).2.1 =
      (nestLoop ops cache (areaRing binR) (polys.length + 1) (List.range polys.length)
        (polys.map (fun p => { p with fit := false })) 0 0 []).2.2.1 := rfl
  have houtm : (nestQ ops cache binR polys).2.2 =
      (nestLoop ops cache (areaRing binR) (polys.length + 1) (List.range polys.length)
        (polys.map (fun p => { p with fit := false })) 0 0 []).2.2.2 := rfl
  rw [houtr, houtm]
  refine ⟨hlen, hnd, fun r hr => hsubF r hr, fun r hr => hfit r hr, ?_⟩
  have hcongr : (List.range polys.length).filter
      (fun r => !((nestLoop ops cache (areaRing binR) (polys.length + 1)
        (List.range polys.length)
        (polys.map (fun p => { p with fit := false })) 0 0 []).2.2.2.getD r default).fit) =
      (List.range polys.length).filter
        (fun r => decide (r ∉ (nestLoop ops cache (areaRing binR) (polys.length + 1)
          (List.range polys.length)
          (polys.map (fun p => { p with fit := false })) 0 0 []).2.2.1.flatten)) := by
    apply List.filter_congr
    intro r hr
    by_cases hrf : r ∈ (nestLoop ops cache (areaRing binR) (polys.length + 1)
        (List.range polys.length)
        (polys.map (fun p => { p with fit := false })) 0 0 []).2.2.1.flatten
    · have h2 := (hfit r (List.mem_range.mp hr)).mpr hrf
      simp only [h2, Bool.not_true]
      simp [hrf]
    · have h2 : ¬ ((nestLoop ops cache (areaRing binR) (polys.length + 1)
          (List.range polys.length)
          (polys.map (fun p => { p with fit := false })) 0 0 []).2.2.2.getD r
            default).fit = true :=
        fun h => hrf ((hfit r (List.mem_range.mp hr)).mp h)
      have h3 := Bool.of_not_eq_true h2
      simp only [h3, Bool.not_false]
      simp [hrf]
  rw [hcongr]
  exact perm_partition (List.range polys.length) _ (List.nodup_range _) hnd
    (fun x hx => List.mem_range.mpr (hsubF x hx))

/-- Witness for C5: the conservation law applied to the concrete
oversized-square run, at reference 0. -/
theorem C5_witness :
    (((nestQ trivOps cacheNone bin300ring [sqFP]).2.2.getD 0 default).fit = true) ↔
      0 ∈ (nestQ trivOps cacheNone bin300ring [sqFP]).2.1.flatten :=
  (C5_nest_conservation trivOps cacheNone bin300ring [sqFP]).2.2.2.1 0 (by norm_num)

/-- The append-if-missing loop of crossover equals the simple filter against
the base when the appended parent's ids are duplicate-free. -/
theorem mateChild_eq_filter (other : List FitPoly) :
    ∀ base : List FitPoly, (other.map (·.id)).Nodup →
    mateChild base other =
      base ++ other.filter (fun p => !(base.any (fun x => x.id == p.id))) := by
  induction other with
  | nil => intro base _; simp [mateChild]
  | cons p ps ih =>
    intro base hnd
    have hnd' := hnd
    rw [List.map_cons, List.nodup_cons] at hnd'
    have hpid : p.id ∉ ps.map (·.id) := hnd'.1
    have hnd2 : (ps.map (·.id)).Nodup := hnd'.2
    by_cases hin : base.any (fun x => x.id == p.id) = true
    · have hstep : mateChild base (p :: ps) = mateChild base ps := by
        simp only [mateChild, List.foldl_cons]
        rw [if_pos hin]
      rw [hstep, ih base hnd2]
      simp [hin]
    · have hstep : mateChild base (p :: ps) = mateChild (base ++ [p]) ps := by
        simp only [mateChild, List.foldl_cons]
        rw [if_neg hin]
      rw [hstep, ih (base ++ [p]) hnd2]
      have hfil : ps.filter (fun q => !((base ++ [p]).any (fun x => x.id == q.id))) =
          ps.filter (fun q => !(base.any (fun x => x.id == q.id))) := by
        apply List.filter_congr
        intro q hq
        have hqid : p.id ≠ q.id := by
          intro he
          exact hpid (he ▸ List.mem_map_of_mem (·.id) hq)
        simp [List.any_append, hqid]
      rw [hfil]
      simp [hin]

/-- Membership by id equals the Boolean any-test of crossover. -/
theorem any_id_iff (l : List FitPoly) (i : ℕ) :
    l.any (fun x => x.id == i) = true ↔ i ∈ l.map (·.id) := by
  simp [List.any_eq_true]

/-- The filtered female contribution of crossover carries exactly the ids
missing from the male prefix. -/
theorem mateChild_ids_perm (male female : List FitPoly) (cutoff : ℕ)
    (hm : (male.map (·.id)).Nodup)
    (hpf : (female.map (·.id)).Perm (male.map (·.id))) :
    ((mateChild (male.take cutoff) female).map (·.id)).Perm (male.map (·.id)) := by
  have hfnd : (female.map (·.id)).Nodup := hpf.nodup_iff.mpr hm
  rw [mateChild_eq_filter female (male.take cutoff) hfnd]
  rw [List.map_append]
  have hfilmap : (female.filter
      (fun p => !((male.take cutoff).any (fun x => x.id == p.id)))).map (·.id) =
      (female.map (·.id)).filter
        (fun i => !((male.take cutoff).any (fun x => x.id == i))) := by
    rw [List.filter_map]
    rfl
  rw [hfilmap]
  have hperm2 : ((female.map (·.id)).filter
      (fun i => !((male.take cutoff).any (fun x => x.id == i)))).Perm
      ((male.map (·.id)).filter
        (fun i => !((male.take cutoff).any (fun x => x.id == i)))) :=
    hpf.filter _
  refine ((List.Perm.refl _).append hperm2).trans ?_
  have hsplit : male.map (·.id) = (male.take cutoff).map (·.id) ++
      (male.drop cutoff).map (·.id) := by
    rw [← List.map_append, List.take_append_drop]
  rw [hsplit]
  rw [List.filter_append]
  have htake : ((male.take cutoff).map (·.id)).filter
      (fun i => !((male.take cutoff).any (fun x => x.id == i))) = [] := by
    rw [List.filter_eq_nil_iff]
    intro i hi
    have : (male.take cutoff).any (fun x => x.id == i) = true :=
      (any_id_iff _ _).mpr hi
    simp [this]
  have hdisj : ∀ i ∈ (male.drop cutoff).map (·.id),
      i ∉ (male.take cutoff).map (·.id) := by
    intro i hi hcon
    have hnd2 : ((male.take cutoff).map (·.id) ++ (male.drop cutoff).map (·.id)).Nodup := by
      rw [← hsplit]; exact hm
    exact (List.disjoint_of_nodup_append hnd2) hcon hi
  have hdrop : ((male.drop cutoff).map (·.id)).filter
      (fun i => !((male.take cutoff).any (fun x => x.id == i))) =
      (male.drop cutoff).map (·.id) := by
    rw [List.filter_eq_self]
    intro i hi
    have : ¬ ((male.take cutoff).any (fun x => x.id == i) = true) := by
      rw [any_id_iff]
      exact hdisj i hi
    simp [Bool.of_not_eq_true this]
  rw [htake, hdrop]
  simp

/-- Claim C9: for parents over the same instance ids with n ≥ 2 polygons,
crossover takes a cut in [1, n−1], allocates two fresh children — child1 is
male[0..cut] followed by the female's polys (in female order) whose instance
id is not already present — and each child carries every instance id exactly
once; with n = 1 the parent objects themselves are returned, unchanged except
that their fitted flag is cleared in place. -/
theorem C9_crossover_spec (ga : GAParams) (st : Store) (m f cutRand : ℕ)
    (hm : m < st.length) (hf : f < st.length) (hmf : m ≠ f) :
    (2 ≤ (st.getD m default).polys.length →
      ((st.getD m default).polys.map (·.id)).Nodup →
      ((st.getD f default).polys.map (·.id)).Perm
        ((st.getD m default).polys.map (·.id)) →
      1 ≤ 1 + cutRand % ((st.getD m default).polys.length - 1) ∧
      1 + cutRand % ((st.getD m default).polys.length - 1) ≤
        (st.getD m default).polys.length - 1 ∧
      (mateSt ga st m f cutRand).1 = (st.length, st.length + 1) ∧
      ((mateSt ga st m f cutRand).2.getD st.length default).polys =
        (st.getD m default).polys.take
            (1 + cutRand % ((st.getD m default).polys.length - 1)) ++
          (st.getD f default).polys.filter
            (fun p => !(((st.getD m default).polys.take
              (1 + cutRand % ((st.getD m default).polys.length - 1))).any
                (fun x => x.id == p.id))) ∧
      (((mateSt ga st m f cutRand).2.getD st.length default).polys.map (·.id)).Perm
        ((st.getD m default).polys.map (·.id)) ∧
      (((mateSt ga st m f cutRand).2.getD (st.length + 1) default).polys.map (·.id)).Perm
        ((st.getD m default).polys.map (·.id)) ∧
      ((mateSt ga st m f cutRand).2.getD st.length default).fitted = none ∧
      ((mateSt ga st m f cutRand).2.getD (st.length + 1) default).fitted = none ∧
      (∀ q, q < st.length →
        (mateSt ga st m f cutRand).2.getD q default = st.getD q default)) ∧
    ((st.getD m default).polys.length = 1 →
      (mateSt ga st m f cutRand).1 = (m, f) ∧
      (mateSt ga st m f cutRand).2.getD m default =
        { st.getD m default with fitted := none } ∧
      (mateSt ga st m f cutRand).2.getD f default =
        { st.getD f default with fitted := none } ∧
      (∀ q, q < st.length → q ≠ m → q ≠ f →
        (mateSt ga st m f cutRand).2.getD q default = st.getD q default)) := by
  constructor
  · intro h2 hnodup hperm
    have hne1 : ¬ ((st.getD m default).polys.length = 1) := by omega
    have hmate : mateSt ga st m f cutRand =
        ((st.length, st.length + 1),
          st ++ [mkSolution ga (mateChild
              ((st.getD m default).polys.take
                (1 + cutRand % ((st.getD m default).polys.length - 1)))
              (st.getD f default).polys),
            mkSolution ga (mateChild
              ((st.getD f default).polys.take
                (1 + cutRand % ((st.getD m default).polys.length - 1)))
              (st.getD m default).polys)]) := by
      simp only [mateSt]
      rw [if_neg hne1]
    have happ1 : ∀ a b : Solution, (st ++ [a, b]).getD st.length default = a := by
      intro a b
      rw [List.getD_eq_getElem?_getD, List.getElem?_append_right (le_refl _)]
      simp
    have happ2 : ∀ a b : Solution, (st ++ [a, b]).getD (st.length + 1) default = b := by
      intro a b
      rw [List.getD_eq_getElem?_getD, List.getElem?_append_right (by omega)]
      simp
    have hfnd : ((st.getD f default).polys.map (·.id)).Nodup :=
      hperm.nodup_iff.mpr hnodup
    have hmod : cutRand % ((st.getD m default).polys.length - 1) <
        (st.getD m default).polys.length - 1 :=
      Nat.mod_lt _ (by omega)
    rw [hmate]
    refine ⟨by omega, by omega, rfl, ?_, ?_, ?_, ?_, ?_, ?_⟩
    · rw [happ1]
      exact mateChild_eq_filter (st.getD f default).polys _ hfnd
    · rw [happ1]
      exact mateChild_ids_perm (st.getD m default).polys (st.getD f default).polys _
        hnodup hperm
    · rw [happ2]
      exact (mateChild_ids_perm (st.getD f default).polys (st.getD m default).polys _
        hfnd hperm.symm).trans hperm
    · rw [happ1]; rfl
    · rw [happ2]; rfl
    · intro q hq
      rw [List.getD_eq_getElem?_getD, List.getElem?_append, if_pos hq,
        ← List.getD_eq_getElem?_getD]
  · intro h1
    have hmate : mateSt ga st m f cutRand =
        ((m, f),
          (st.set m { st.getD m default with fitted := none }).set f
            { (st.set m { st.getD m default with fitted := none }).getD f default with
              fitted := none }) := by
      simp only [mateSt]
      rw [if_pos h1]
    have hlen1 : (st.set m { st.getD m default with fitted := none }).length =
        st.length := by simp
    have hstf : (st.set m { st.getD m default with fitted := none }).getD f default =
        st.getD f default := by
      rw [List.getD_eq_getElem?_getD, List.getElem?_set_ne hmf,
        ← List.getD_eq_getElem?_getD]
    rw [hmate]
    refine ⟨rfl, ?_, ?_, ?_⟩
    · rw [List.getD_eq_getElem?_getD, List.getElem?_set_ne (Ne.symm hmf),
        List.getElem?_set_self (by simpa using hm)]
      simp
    · rw [List.getD_eq_getElem?_getD,
        List.getElem?_set_self (by simpa using hf)]
      rw [hstf]
      simp
    · intro q hq hqm hqf
      rw [List.getD_eq_getElem?_getD, List.getElem?_set_ne (Ne.symm hqf),
        List.getElem?_set_ne (Ne.symm hqm), ← List.getD_eq_getElem?_getD]

/-- Witness for C9: crossover of two evaluated two-polygon parents with
opposite orders, cut 1. -/
theorem C9_witness :
    (mateSt gaC4 [maleW9, femaleW9] 0 1 0).1 = (2, 3) ∧
    (((mateSt gaC4 [maleW9, femaleW9] 0 1 0).2.getD 2 default).polys.map (·.id)).Perm
      ((([maleW9, femaleW9] : Store).getD 0 default).polys.map (·.id)) := by
  have h := (C9_crossover_spec gaC4 [maleW9, femaleW9] 0 1 0 (by norm_num) (by norm_num)
    (by norm_num)).1
    (by norm_num [maleW9])
    (by simp [maleW9, fpA, fpB])
    (by
      simp [maleW9, femaleW9, fpA, fpB]
      exact List.Perm.swap _ _ _)
  exact ⟨h.2.2.1, h.2.2.2.2.1⟩

/-- pick returns a member of a non-empty list. -/
theorem pick_mem (l : List ℕ) (i : ℕ) (h : l ≠ []) : pick l i ∈ l := by
  unfold pick
  have hlen : i % l.length < l.length := Nat.mod_lt _ (List.length_pos.mpr h)
  rw [List.getD_eq_getElem _ _ hlen]
  exact List.getElem_mem _

/-- A crossover of a parent with more than one polygon allocates two fresh
children at the end of the store. -/
theorem mateSt_fresh (ga : GAParams) (st : Store) (m f cut : ℕ)
    (h : (st.getD m default).polys.length ≠ 1) :
    ∃ a b : Solution, mateSt ga st m f cut = ((st.length, st.length + 1), st ++ [a, b]) := by
  refine ⟨mkSolution ga (mateChild ((st.getD m default).polys.take
      (1 + cut % ((st.getD m default).polys.length - 1))) (st.getD f default).polys),
    mkSolution ga (mateChild ((st.getD f default).polys.take
      (1 + cut % ((st.getD m default).polys.length - 1))) (st.getD m default).polys), ?_⟩
  simp only [mateSt]
  rw [if_neg h]

/-- The store frame of the new-generation loop: when every drawn parent has
more than one polygon, only freshly allocated children are ever written, so
entries below the initial store length are untouched, and the new population
only grows at the end. -/
theorem ngLoop_frame (ga : GAParams) (trig : TrigOracle) (sorted : List ℕ)
    (oracle : ℕ → DrawStep) (st0 : Store)
    (hne : sorted ≠ [])
    (hmem : ∀ r ∈ sorted, r < st0.length)
    (hpoly : ∀ r ∈ sorted, (st0.getD r default).polys.length ≠ 1) :
    ∀ fuel step new_pop st,
      st0.length ≤ st.length →
      (∀ q, q < st0.length → st.getD q default = st0.getD q default) →
      st0.length ≤ (ngLoop ga trig sorted oracle fuel step new_pop st).2.length ∧
      (∀ q, q < st0.length →
        (ngLoop ga trig sorted oracle fuel step new_pop st).2.getD q default =
          st0.getD q default) ∧
      (∃ suffix, (ngLoop ga trig sorted oracle fuel step new_pop st).1 =
        new_pop ++ suffix) := by
  intro fuel
  induction fuel with
  | zero =>
    intro step new_pop st hlen hframe
    exact ⟨hlen, hframe, [], by simp [ngLoop]⟩
  | succ fuel ih =>
    intro step new_pop st hlen hframe
    by_cases hcond : new_pop.length < sorted.length
    · simp only [ngLoop, hcond, if_true]
      try dsimp only
      have hmref : pick sorted (oracle step).i ∈ sorted := pick_mem _ _ hne
      have hmlt : pick sorted (oracle step).i < st0.length := hmem _ hmref
      have hmne : (st.getD (pick sorted (oracle step).i) default).polys.length ≠ 1 := by
        rw [hframe _ hmlt]
        exact hpoly _ hmref
      obtain ⟨a, b, hmate⟩ := mateSt_fresh ga st (pick sorted (oracle step).i)
        (pick sorted (oracle step).j) (oracle step).cut hmne
      rw [hmate]
      try dsimp only
      -- the two child writes target indices ≥ st.length ≥ st0.length
      have hlen1 : st.length + 2 = (st ++ [a, b]).length := by simp
      have hframe1 : ∀ (l : Store), st0.length ≤ l.length →
          (∀ q, q < st0.length → l.getD q default = st0.getD q default) →
          ∀ (i : ℕ) (v : Solution), st.length ≤ i →
          st0.length ≤ (l.set i v).length ∧
          (∀ q, q < st0.length → (l.set i v).getD q default = st0.getD q default) := by
        intro l hl hfr i v hi
        refine ⟨by simpa using hl, ?_⟩
        intro q hq
        rw [List.getD_eq_getElem?_getD, List.getElem?_set_ne (by omega),
          ← List.getD_eq_getElem?_getD]
        exact hfr q hq
      have happlen : st0.length ≤ (st ++ [a, b]).length := by
        simp only [List.length_append]
        omega
      have happframe : ∀ q, q < st0.length →
          (st ++ [a, b]).getD q default = st0.getD q default := by
        intro q hq
        rw [List.getD_eq_getElem?_getD, List.getElem?_append, if_pos (by omega),
          ← List.getD_eq_getElem?_getD]
        exact hframe q hq
      obtain ⟨hs2len, hs2frame⟩ := hframe1 (st ++ [a, b]) happlen happframe st.length
        ((((st ++ [a, b]).getD st.length default)).mutateSol trig (oracle step).mut1)
        (le_refl _)
      by_cases hcond2 : new_pop.length + 1 < sorted.length
      · simp only [List.length_append, List.length_cons, List.length_nil, hcond2, if_true]
        try dsimp only
        obtain ⟨hs3len, hs3frame⟩ := hframe1 _ hs2len hs2frame (st.length + 1) _
          (by omega)
        obtain ⟨h1, h2, suffix, h3⟩ := ih (step + 1) (new_pop ++ [st.length] ++ [st.length + 1]) _ hs3len hs3frame
        refine ⟨h1, h2, [st.length] ++ [st.length + 1] ++ suffix, ?_⟩
        rw [h3]
        simp
      · simp only [List.length_append, List.length_cons, List.length_nil, hcond2, if_false]
        try dsimp only
        obtain ⟨h1, h2, suffix, h3⟩ := ih (step + 1) (new_pop ++ [st.length]) _ hs2len hs2frame
        refine ⟨h1, h2, [st.length] ++ suffix, ?_⟩
        rw [h3]
        simp
    · simp only [ngLoop, hcond, if_false]
      exact ⟨hlen, hframe, [], by simp⟩


/-- The running minimum never exceeds its initial value. -/
theorem foldlMin_le_init (st : Store) (l : List ℕ) :
    ∀ a : ℚ, l.foldl (fun acc x => min acc (fitKey st x)) a ≤ a := by
  induction l with
  | nil => intro a; exact le_refl a
  | cons x xs ih =>
    intro a
    exact le_trans (ih _) (min_le_left _ _)

/-- The running minimum is a lower bound on every scanned key. -/
theorem foldlMin_le_mem (st : Store) (l : List ℕ) :
    ∀ (a : ℚ), ∀ r ∈ l, l.foldl (fun acc x => min acc (fitKey st x)) a ≤ fitKey st r := by
  induction l with
  | nil => intro a r hr; cases hr
  | cons x xs ih =>
    intro a r hr
    rcases List.mem_cons.mp hr with rfl | hr2
    · exact le_trans (foldlMin_le_init st xs _) (min_le_right _ _)
    · exact ih _ r hr2

/-- The running minimum is the initial value or some scanned key. -/
theorem foldlMin_attained (st : Store) (l : List ℕ) :
    ∀ a : ℚ, l.foldl (fun acc x => min acc (fitKey st x)) a = a ∨
      ∃ r ∈ l, l.foldl (fun acc x => min acc (fitKey st x)) a = fitKey st r := by
  induction l with
  | nil => intro a; exact Or.inl rfl
  | cons x xs ih =>
    intro a
    rcases ih (min a (fitKey st x)) with h | ⟨r, hr, h⟩
    · rcases min_choice a (fitKey st x) with he | he
      · exact Or.inl (by rw [List.foldl_cons, h, he])
      · exact Or.inr ⟨x, List.mem_cons_self _ _, by rw [List.foldl_cons, h, he]⟩
    · exact Or.inr ⟨r, List.mem_cons_of_mem _ hr, by rw [List.foldl_cons, h]⟩

/-- bestFitness is a lower bound on the fitness of every member. -/
theorem bestFitness_le (st : Store) (pop : List ℕ) :
    ∀ r ∈ pop, bestFitness st pop ≤ fitKey st r := by
  intro r hr
  cases pop with
  | nil => cases hr
  | cons p ps =>
    rcases List.mem_cons.mp hr with rfl | hr2
    · exact foldlMin_le_init st ps _
    · exact foldlMin_le_mem st ps _ r hr2

/-- bestFitness is attained by some member of a non-empty population. -/
theorem bestFitness_attained (st : Store) (pop : List ℕ) (h : pop ≠ []) :
    ∃ r ∈ pop, bestFitness st pop = fitKey st r := by
  cases pop with
  | nil => exact absurd rfl h
  | cons p ps =>
    rcases foldlMin_attained st ps (fitKey st p) with h2 | ⟨r, hr, h2⟩
    · exact ⟨p, List.mem_cons_self _ _, h2⟩
    · exact ⟨r, List.mem_cons_of_mem _ hr, h2⟩

/-- A Solution whose fitted field is a non-empty list is left untouched by
Solution.fit. -/
theorem fitQ_of_fitted (ops : GeomOps) (cache : Cache) (s : Solution)
    (l : List (List ℕ)) (hl : s.fitted = some l) (hne : l ≠ []) :
    Solution.fitQ ops cache s = s := by
  unfold Solution.fitQ
  rw [if_neg]
  intro h
  rcases h with h | h
  · rw [hl] at h; cases h
  · rw [hl] at h
    exact hne (Option.some.inj h)

/-- A store entry fixed by Solution.fit keeps its value through the whole
evaluation fan-out. -/
theorem evalPop_fix (ops : GeomOps) (cache : Cache) (pop : List ℕ) :
    ∀ (st : Store) (r0 : ℕ), r0 < st.length →
      Solution.fitQ ops cache (st.getD r0 default) = st.getD r0 default →
      (evalPop ops cache st pop).getD r0 default = st.getD r0 default := by
  induction pop with
  | nil => intro st r0 _ _; rfl
  | cons r rs ih =>
    intro st r0 hlt hfix
    simp only [evalPop, List.foldl_cons]
    have hpres : (st.set r (Solution.fitQ ops cache (st.getD r default))).getD r0 default
        = st.getD r0 default := by
      by_cases hr : r = r0
      · subst hr
        rw [hfix, List.getD_eq_getElem?_getD, List.getElem?_set_self hlt]
        rfl
      · rw [List.getD_eq_getElem?_getD, List.getElem?_set_ne hr,
          ← List.getD_eq_getElem?_getD]
    have h2 := ih (st.set r (Solution.fitQ ops cache (st.getD r default))) r0
      (by simpa using hlt) (by rw [hpres]; exact hfix)
    rw [hpres] at h2
    exact h2

/-- The sorted population's head is a member achieving the minimum
fitness. -/
theorem sorted_head_min (st : Store) (pop : List ℕ) (r0 : ℕ) (rest : List ℕ)
    (hs : List.insertionSort (fun a b => fitKey st a ≤ fitKey st b) pop = r0 :: rest) :
    r0 ∈ pop ∧ ∀ r ∈ pop, fitKey st r0 ≤ fitKey st r := by
  haveI h1 : IsTotal ℕ (fun a b => fitKey st a ≤ fitKey st b) :=
    ⟨fun a b => le_total _ _⟩
  haveI h2 : IsTrans ℕ (fun a b => fitKey st a ≤ fitKey st b) :=
    ⟨fun a b c hab hbc => le_trans hab hbc⟩
  have hperm := List.perm_insertionSort (fun a b => fitKey st a ≤ fitKey st b) pop
  have hsorted := List.sorted_insertionSort (fun a b => fitKey st a ≤ fitKey st b) pop
  rw [hs] at hperm hsorted
  constructor
  · exact hperm.subset (List.mem_cons_self r0 rest)
  · intro r hr
    rcases List.mem_cons.mp (hperm.symm.subset hr) with rfl | hr2
    · exact le_refl _
    · exact (List.sorted_cons.mp hsorted).1 r hr2

/-- Claim C4 (amended): for every evaluated population of size ≥ 2 whose
members all have at least two polygons, new_generation sorts ascending by
fitness and carries the minimum-fitness solution forward as the head of the
new population, its store entry unchanged, so after the next evaluation the
best fitness has not increased.  (With a single polygon the crossover path
mutates the drawn parents in place, which can touch the elite — see the
counterexample.) -/
theorem C4_elitism_amended (ga : GAParams) (trig : TrigOracle) (oracle : ℕ → DrawStep)
    (ops : GeomOps) (cache : Cache) (st : Store) (pop : List ℕ)
    (hlen : 2 ≤ pop.length)
    (hmem : ∀ r ∈ pop, r < st.length)
    (hfitted : ∀ r ∈ pop, ∃ l, (st.getD r default).fitted = some l ∧ l ≠ [])
    (hpoly : ∀ r ∈ pop, (st.getD r default).polys.length ≠ 1) :
    ∃ r0, (new_generationSt ga trig oracle st pop).1.head? = some r0 ∧ r0 ∈ pop ∧
      (new_generationSt ga trig oracle st pop).2.getD r0 default = st.getD r0 default ∧
      fitKey st r0 = bestFitness st pop ∧
      bestFitness (evalPop ops cache (new_generationSt ga trig oracle st pop).2
          (new_generationSt ga trig oracle st pop).1)
        (new_generationSt ga trig oracle st pop).1 ≤ bestFitness st pop := by
  have hpne : pop ≠ [] := by
    intro h
    rw [h] at hlen
    exact absurd hlen (by norm_num)
  have hsne : List.insertionSort (fun a b => fitKey st a ≤ fitKey st b) pop ≠ [] := by
    intro h
    have := List.perm_insertionSort (fun a b => fitKey st a ≤ fitKey st b) pop
    rw [h] at this
    exact hpne this.symm.eq_nil
  rcases hs : List.insertionSort (fun a b => fitKey st a ≤ fitKey st b) pop with
    _ | ⟨r0, rest⟩
  · exact absurd hs hsne
  obtain ⟨hr0mem, hr0min⟩ := sorted_head_min st pop r0 rest hs
  have hpermsub : ∀ r ∈ (r0 :: rest : List ℕ), r ∈ pop := by
    have hperm := List.perm_insertionSort (fun a b => fitKey st a ≤ fitKey st b) pop
    rw [hs] at hperm
    exact fun r hr => hperm.subset hr
  have hng : new_generationSt ga trig oracle st pop =
      ngLoop ga trig (r0 :: rest) oracle (pop.length + 1) 0 [r0] st := by
    simp only [new_generationSt, hs]
  obtain ⟨hflen, hframe, suffix, hsuffix⟩ :=
    ngLoop_frame ga trig (r0 :: rest) oracle st (by simp)
      (fun r hr => hmem r (hpermsub r hr))
      (fun r hr => hpoly r (hpermsub r hr))
      (pop.length + 1) 0 [r0] st (le_refl _) (fun q _ => rfl)
  have hr0lt : r0 < st.length := hmem r0 hr0mem
  have hbest : fitKey st r0 = bestFitness st pop := by
    refine le_antisymm ?_ (bestFitness_le st pop r0 hr0mem)
    obtain ⟨r, hr, hbr⟩ := bestFitness_attained st pop hpne
    rw [hbr]
    exact hr0min r hr
  obtain ⟨l0, hl0, hl0ne⟩ := hfitted r0 hr0mem
  have hfix : Solution.fitQ ops cache (st.getD r0 default) = st.getD r0 default :=
    fitQ_of_fitted ops cache _ l0 hl0 hl0ne
  have houtfr : (ngLoop ga trig (r0 :: rest) oracle (pop.length + 1) 0 [r0] st).2.getD r0
      default = st.getD r0 default := hframe r0 hr0lt
  have hr0out : r0 ∈ (ngLoop ga trig (r0 :: rest) oracle (pop.length + 1) 0 [r0] st).1 := by
    rw [hsuffix]
    exact List.mem_append.mpr (Or.inl (List.mem_cons_self r0 []))
  have heval : (evalPop ops cache
      (ngLoop ga trig (r0 :: rest) oracle (pop.length + 1) 0 [r0] st).2
      (ngLoop ga trig (r0 :: rest) oracle (pop.length + 1) 0 [r0] st).1).getD r0 default =
      st.getD r0 default := by
    rw [evalPop_fix ops cache _ _ r0 (by omega) (by rw [houtfr]; exact hfix), houtfr]
  refine ⟨r0, ?_, hr0mem, ?_, hbest, ?_⟩
  · rw [hng, hsuffix]
    rfl
  · rw [hng]
    exact houtfr
  · rw [hng]
    have hle := bestFitness_le
      (evalPop ops cache (ngLoop ga trig (r0 :: rest) oracle (pop.length + 1) 0 [r0] st).2
        (ngLoop ga trig (r0 :: rest) oracle (pop.length + 1) 0 [r0] st).1)
      (ngLoop ga trig (r0 :: rest) oracle (pop.length + 1) 0 [r0] st).1 r0 hr0out
    have hkey : fitKey (evalPop ops cache
        (ngLoop ga trig (r0 :: rest) oracle (pop.length + 1) 0 [r0] st).2
        (ngLoop ga trig (r0 :: rest) oracle (pop.length + 1) 0 [r0] st).1) r0 =
        fitKey st r0 := by
      unfold fitKey
      rw [heval]
    rw [hkey, hbest] at hle
    exact hle

/-- Witness for C4: a concrete two-member, two-polygon population on which
the amended elitism theorem applies. -/
theorem C4_witness :
    ∃ r0, (new_generationSt gaC4 trivTrig oracleC4 [s1W4, s2W4] [0, 1]).1.head? = some r0 ∧
      r0 ∈ [0, 1] ∧
      (new_generationSt gaC4 trivTrig oracleC4 [s1W4, s2W4] [0, 1]).2.getD r0 default =
        [s1W4, s2W4].getD r0 default ∧
      fitKey [s1W4, s2W4] r0 = bestFitness [s1W4, s2W4] [0, 1] ∧
      bestFitness (evalPop trivOps cacheNone
          (new_generationSt gaC4 trivTrig oracleC4 [s1W4, s2W4] [0, 1]).2
          (new_generationSt gaC4 trivTrig oracleC4 [s1W4, s2W4] [0, 1]).1)
        (new_generationSt gaC4 trivTrig oracleC4 [s1W4, s2W4] [0, 1]).1 ≤
        bestFitness [s1W4, s2W4] [0, 1] := by
  refine C4_elitism_amended gaC4 trivTrig oracleC4 trivOps cacheNone [s1W4, s2W4] [0, 1]
    (by norm_num) ?_ ?_ ?_
  · intro r hr
    rcases List.mem_cons.mp hr with rfl | hr2
    · norm_num
    · rcases List.mem_cons.mp hr2 with rfl | h
      · norm_num
      · cases h
  · intro r hr
    rcases List.mem_cons.mp hr with rfl | hr2
    · exact ⟨[[0, 1]], rfl, by simp⟩
    · rcases List.mem_cons.mp hr2 with rfl | h
      · exact ⟨[[0, 1]], rfl, by simp⟩
      · cases h
  · intro r hr
    rcases List.mem_cons.mp hr with rfl | hr2
    · simp [s1W4]
    · rcases List.mem_cons.mp hr2 with rfl | h
      · simp [s2W4]
      · cases h

/-- Counterexample to C4 as stated: with single-polygon Solutions the
crossover path of `__mate` clears the `fitted` flag of the drawn parent
objects in place; the elite (the head of the new population, a reference to
the same object) is NOT carried into the next generation unchanged — its
`fitted` field, `some [[0]]` before, is `none` after. -/
theorem C4_counterexample :
    (new_generationSt gaC4 trivTrig oracleC4 [s1C4, s2C4] [0, 1]).1 = [0, 0] ∧
    ((new_generationSt gaC4 trivTrig oracleC4 [s1C4, s2C4] [0, 1]).2.getD 0
      default).fitted = none ∧
    s1C4.fitted = some [[0]] := by
  refine ⟨?_, ?_, rfl⟩ <;>
  · norm_num [new_generationSt, ngLoop, mateSt, pick, fitKey, s1C4, s2C4, gaC4,
      oracleC4, noMut, Solution.mutateSol, List.insertionSort, List.orderedInsert,
      List.range_succ]
    try simp

end StickerNest
